import Mathlib

/-!
A verification development for the ranked-choice (instant-runoff) election
runner.  The definitions below are a shallow embedding of the Python source:

  * `src/utils.py`                — `make_ordinal`
  * `src/ranked_choice_runner.py` — `_copy_vote_dict`,
    `_select_removable_candidates`, `_compute_tiebreaker_winner`,
    `RankedChoiceRunner` (`__init__`, `run_election`, `_runoff_generator`,
    `_transfer_votes`, `_run_tiebreaker`, `_run_first_tiebreaker`,
    `_run_second_tiebreaker`).

A ballot (a Python tuple of candidate-name strings) is a `List String`.
A `VoteDict` (a Python `dict` from candidate to list of ballots, which
preserves insertion order and has unique keys) is an association list
`List (String × List Ballot)`; all operations below respect the dict's
insertion order.  Python exceptions (`KeyError`, generator failure) are
modelled with `Except String`; the generator structure of
`_runoff_generator` is modelled by returning the list of yielded snapshots.
Machine integers are `Int`/`Nat`; the Python float `threshold` is modelled
as a rational number (exact arithmetic).
-/

namespace RankedChoice

abbrev Ballot := List String

abbrev VoteDict := List (String × List Ballot)

/-- `src/utils.py`: `_ORDINAL_SUFFIX_LIST`. -/
def ordinalSuffixList : List String := ["th", "st", "nd", "rd", "th"]

/-- `src/utils.py`: `make_ordinal(n)`. -/
def make_ordinal (n : Nat) : String :=
  let suffix :=
    if 11 ≤ n % 100 ∧ n % 100 ≤ 13 then "th"
    else ordinalSuffixList.getD (min (n % 10) 4) "th"
  toString n ++ suffix

/-- The keys of a `VoteDict`, in insertion order (`votes.keys()`). -/
def keysOf (votes : VoteDict) : List String := votes.map (·.1)

/-- `candidate in votes` (Python key-membership test). -/
def hasKey (votes : VoteDict) (c : String) : Bool :=
  votes.any (fun p => p.1 == c)

/-- `votes[c]` when `c` is known to be a key; `[]` for a missing key
(callers that can raise `KeyError` test `hasKey` explicitly first).
First-match semantics; a Python dict has unique keys. -/
def lookup : VoteDict → String → List Ballot
  | [], _ => []
  | p :: ps, c => if p.1 == c then p.2 else lookup ps c

/-- `votes[c].append(b)` on an existing key `c` (no-op for a missing key;
call sites that can raise `KeyError` test `hasKey` first). -/
def appendBallot : VoteDict → String → Ballot → VoteDict
  | [], _, _ => []
  | p :: ps, c, b =>
    (if p.1 == c then (p.1, p.2 ++ [b]) else p) :: appendBallot ps c b

/-- `_copy_vote_dict(votes)`: Python copies each bucket list so the yielded
snapshot is immutable; in the pure model the copy is the value itself. -/
def copy_vote_dict (votes : VoteDict) : VoteDict := votes

/-- `for c in cands: del votes[c]` (at every call site each `c` is an
existing key because a preceding `_transfer_votes` already indexed it). -/
def remove_candidates (votes : VoteDict) (cands : List String) : VoteDict :=
  votes.filter (fun p => !(cands.contains p.1))

/-- The smallest bucket size, `min([len(ballots) for _, ballots in
votes.items()])` (Python raises `ValueError` on an empty dict; the
call site is only reached with a non-empty dict, and the `0` returned
here for `[]` is never used by a theorem). -/
def min_bucket_size (votes : VoteDict) : Nat :=
  match votes with
  | [] => 0
  | p :: ps => ps.foldl (fun m q => min m q.2.length) p.2.length

/-- `_select_removable_candidates(votes)`: the set of candidates whose
bucket size equals the minimum, in dict insertion order. -/
def select_removable_candidates (votes : VoteDict) : List String :=
  (votes.filter (fun p => p.2.length == min_bucket_size votes)).map (·.1)

/-- The largest bucket size, `max([len(ballots) for _, ballots in
candidate_list])` (same `ValueError` caveat as `min_bucket_size`). -/
def max_bucket_size (votes : VoteDict) : Nat :=
  match votes with
  | [] => 0
  | p :: ps => ps.foldl (fun m q => max m q.2.length) p.2.length

/-- `winner_list`: remaining candidates whose bucket size is maximal. -/
def winner_list_of (votes : VoteDict) : List String :=
  (votes.filter (fun p => p.2.length == max_bucket_size votes)).map (·.1)

/-- `any(len(ballots) > self._majority for ...)`. -/
def hasMajority (majority : Int) (votes : VoteDict) : Bool :=
  votes.any (fun p => (p.2.length : Int) > majority)

/-- Python `int(q)` on a real value: truncation toward zero. -/
def pyInt (q : ℚ) : Int := if 0 ≤ q then ⌊q⌋ else ⌈q⌉

/-- The state fixed at construction by `RankedChoiceRunner.__init__`
(`self._data`, `self._candidates`, `self._ballot_size`,
`self._candidates_required`, `self._majority`).  `self._eliminated`,
`self.winners` and `self.notes` are the mutable state and are passed
explicitly to the functions below. -/
structure Runner where
  data : List Ballot
  candidates : List String
  ballot_size : Nat
  candidates_required : Nat
  majority : Int

/-- `RankedChoiceRunner.__init__`: raises `ValueError` when the ballot
list is empty or when more candidates are required than are running;
otherwise stores the configuration with
`self._majority = int(len(self._data) * threshold) + 1`. -/
def mkRunner (data : List Ballot) (candidates : List String) (ballot_size : Nat)
    (candidates_required : Nat) (threshold : ℚ) : Except String Runner :=
  if data.isEmpty then
    .error "Invalid or empty ballot list."
  else if candidates_required > candidates.length then
    .error "Number of required candidates exceed number of available candidates. "
  else
    .ok { data := data, candidates := candidates, ballot_size := ballot_size,
          candidates_required := candidates_required,
          majority := pyInt ((data.length : ℚ) * threshold) + 1 }

/-- The first choice on the ballot that is not in `self._eliminated`
(the inner `for choice in ballot: if choice not in self._eliminated`). -/
def first_valid_choice (eliminated : List String) (b : Ballot) : Option String :=
  b.find? (fun choice => !(eliminated.contains choice))

/-- Transfer of a single ballot inside `_transfer_votes`:
`votes[choice].append(ballot)` for the first non-eliminated choice
(`KeyError` when that choice is not a key of `votes`); a ballot with no
valid choice left is dropped. -/
def transfer_ballot (eliminated : List String) (votes : VoteDict) (b : Ballot) :
    Except String VoteDict :=
  match first_valid_choice eliminated b with
  | none => .ok votes
  | some choice =>
      if hasKey votes choice then .ok (appendBallot votes choice b)
      else .error "KeyError"

/-- `for ballot in transferred_ballots: ...` — transfer a list of ballots
in order. -/
def transfer_from (eliminated : List String) (votes : VoteDict) :
    List Ballot → Except String VoteDict
  | [] => .ok votes
  | b :: bs =>
    match transfer_ballot eliminated votes b with
    | .error e => .error e
    | .ok votes2 => transfer_from eliminated votes2 bs

/-- `for candidate in eliminated_candidates: transferred_ballots =
votes[candidate]; ...` — `votes[candidate]` raises `KeyError` when
`candidate` is not a key. -/
def transfer_all (eliminated : List String) (votes : VoteDict) :
    List String → Except String VoteDict
  | [] => .ok votes
  | c :: cs =>
    if hasKey votes c then
      match transfer_from eliminated votes (lookup votes c) with
      | .error e => .error e
      | .ok votes2 => transfer_all eliminated votes2 cs
    else .error "KeyError"

/-- `self._eliminated.update(eliminated_candidates)` (Python mutable set
union; modelled as a duplicate-free list, membership is what matters). -/
def union_elim (eliminated : List String) (new : List String) : List String :=
  eliminated ++ new.filter (fun c => !(eliminated.contains c))

/-- `RankedChoiceRunner._transfer_votes(votes, eliminated_candidates)`
with the runner's cumulative `self._eliminated` set passed and returned
explicitly.  The set is updated *before* any ballot moves, so a ballot
never transfers to a candidate eliminated in the same round. -/
def transfer_votes (votes : VoteDict) (eliminated_candidates : List String)
    (eliminated : List String) : Except String (VoteDict × List String) :=
  match transfer_all (union_elim eliminated eliminated_candidates) votes eliminated_candidates with
  | .error e => .error e
  | .ok votes2 => .ok (votes2, union_elim eliminated eliminated_candidates)

/-- The `while not any(has_majority)` loop of `_runoff_generator`,
returning the list of snapshots yielded *inside* the loop, the final
vote distribution and the final cumulative eliminated set.  The `fuel`
argument is a structural-recursion bound; `runoff_loop` passes
`votes.length`, which is sufficient because every executed round removes
at least one candidate (proved below), so `.error "out of fuel"` is
unreachable from any state a caller can build. -/
def runoff_loop_fuel (majority : Int) :
    Nat → VoteDict → List String →
    Except String (List VoteDict × VoteDict × List String)
  | 0, _, _ => .error "out of fuel"
  | fuel + 1, votes, eliminated =>
    if hasMajority majority votes then .ok ([], votes, eliminated)
    else
      let elim := select_removable_candidates votes
      if elim.length = votes.length then .ok ([], votes, eliminated)
      else
        match transfer_votes votes elim eliminated with
        | .error e => .error e
        | .ok (votes1, eliminated2) =>
          let votes2 := remove_candidates votes1 elim
          match runoff_loop_fuel majority fuel votes2 eliminated2 with
          | .error e => .error e
          | .ok (snaps, vf, ef) => .ok (votes2 :: snaps, vf, ef)

/-- The elimination loop of `_runoff_generator` (lines 176–193). -/
def runoff_loop (majority : Int) (votes : VoteDict) (eliminated : List String) :
    Except String (List VoteDict × VoteDict × List String) :=
  runoff_loop_fuel majority votes.length votes eliminated

/-- Point value of one ballot for candidate `c`:
`ballot_size - ballot.index(c)`, and `0` when `c` is not on the ballot
(the `except ValueError: continue`). -/
def ballot_points (ballot_size : Nat) (c : String) (b : Ballot) : Int :=
  match b.findIdx? (fun x => x == c) with
  | some i => (ballot_size : Int) - (i : Int)
  | none => 0

/-- Total points of candidate `w` over a list of ballots. -/
def candidate_points (ballot_size : Nat) (scope : List Ballot) (w : String) : Int :=
  (scope.map (ballot_points ballot_size w)).sum

/-- The `tiebreaker_dict` built by `_run_first_tiebreaker` /
`_run_second_tiebreaker`: a `defaultdict(int)` keyed in `winner_list`
order.  A key is only created when at least one ballot in the scope
actually ranks the candidate (otherwise every iteration hits
`continue` and the candidate is absent from the mapping). -/
def tiebreaker_dict (ballot_size : Nat) (winner_list : List String)
    (scope : String → List Ballot) : List (String × Int) :=
  winner_list.filterMap (fun w =>
    if (scope w).any (fun b => b.contains w) then
      some (w, candidate_points ballot_size (scope w) w)
    else none)

/-- The maximum point total of a *non-empty* mapping,
`max([point for point in tiebreaker_dict.values()])`.  The `0` returned
for `[]` is never consulted: `compute_tiebreaker_winner` raises before
taking the maximum of an empty mapping, exactly as Python's `max([])`
does. -/
def max_points (d : List (String × Int)) : Int :=
  match d with
  | [] => 0
  | p :: ps => ps.foldl (fun m q => max m q.2) p.2

/-- `_compute_tiebreaker_winner(tiebreaker_dict)`: on an *empty* mapping
`max([...])` raises `ValueError` — an error that `_runoff_generator`
does **not** catch (it catches only the `RuntimeError` of an unresolved
tie), so it escapes the runner.  Otherwise: the single candidate with
the maximum point total (`.ok (some w)`), or `.ok none` when several
share it. -/
def compute_tiebreaker_winner (d : List (String × Int)) :
    Except String (Option String) :=
  match d with
  | [] => .error "ValueError"
  | p :: ps =>
    match ((p :: ps).filter (fun q => q.2 == max_points (p :: ps))).map (·.1) with
    | [w] => .ok (some w)
    | _ => .ok none

/-- `RankedChoiceRunner._run_first_tiebreaker(winner_list, votes)`:
scope is each tied candidate's own current bucket. -/
def run_first_tiebreaker (ballot_size : Nat) (winner_list : List String)
    (votes : VoteDict) : Except String (Option String) :=
  compute_tiebreaker_winner (tiebreaker_dict ballot_size winner_list (lookup votes))

/-- `RankedChoiceRunner._run_second_tiebreaker(winner_list, all_ballots)`:
scope is every ballot cast in the election. -/
def run_second_tiebreaker (ballot_size : Nat) (winner_list : List String)
    (all_ballots : List Ballot) : Except String (Option String) :=
  compute_tiebreaker_winner (tiebreaker_dict ballot_size winner_list (fun _ => all_ballots))

/-- `RankedChoiceRunner._run_tiebreaker`: first tiebreaker, then the
second.  `.ok none` models the `RuntimeError` raised when both complete
without a single winner (caught by `_runoff_generator`); `.error`
propagates the uncaught `ValueError` of an empty point mapping. -/
def run_tiebreaker (ballot_size : Nat) (data : List Ballot)
    (winner_list : List String) (votes : VoteDict) :
    Except String (Option (String × Nat)) :=
  match run_first_tiebreaker ballot_size winner_list votes with
  | .error e => .error e
  | .ok (some w) => .ok (some (w, 1))
  | .ok none =>
    match run_second_tiebreaker ballot_size winner_list data with
    | .error e => .error e
    | .ok (some w) => .ok (some (w, 2))
    | .ok none => .ok none

/-- The outcome of one seat: the entry added to `self.winners` (a
candidate, or the tie sentinel string) and the note appended to
`self.notes[winner]`, if any. -/
structure SeatResult where
  winner_entry : String
  note : Option String
  deriving DecidableEq, Repr

/-- Winner compilation at the end of `_runoff_generator` (lines 195–212).
An empty final distribution is a fatal internal error (Python raises
`ValueError` at `max([...])` on line 197; the dead `num_winners == 0`
branch raises `ValueError("No winners...")`).  An unresolved tie is the
caught-`RuntimeError` branch: the sentinel string joins the tied
candidates with `", "`.  A `ValueError` raised inside the tiebreakers
(empty point mapping) is **not** caught and propagates out of the
generator. -/
def finish_runoff (ballot_size : Nat) (data : List Ballot) (votes : VoteDict) :
    Except String SeatResult :=
  if votes.isEmpty then .error "ValueError"
  else
    match winner_list_of votes with
    | [] => .error "No winners. This should not be possible"
    | [w] => .ok { winner_entry := w, note := none }
    | wl =>
      match run_tiebreaker ballot_size data wl votes with
      | .error e => .error e
      | .ok (some (w, i)) =>
          .ok { winner_entry := w,
                note := some ("determined by the " ++ make_ordinal i ++ " tiebreaker") }
      | .ok none =>
          .ok { winner_entry := "A tie has occurred between " ++ String.intercalate ", " wl,
                note := none }

/-- `RankedChoiceRunner._runoff_generator(votes)`: the initial snapshot,
the loop, then winner compilation.  Returns every yielded snapshot, the
seat outcome, and the final cumulative eliminated set. -/
def runoff_seat (majority : Int) (ballot_size : Nat) (data : List Ballot)
    (votes : VoteDict) (eliminated : List String) :
    Except String (List VoteDict × SeatResult × List String) :=
  match runoff_loop majority votes eliminated with
  | .error e => .error e
  | .ok (snaps, vf, ef) =>
    match finish_runoff ballot_size data vf with
    | .error e => .error e
    | .ok res => .ok (copy_vote_dict votes :: snaps, res, ef)

/-- `votes[ballot[0]].append(ballot)` for one ballot of `self._data`
(`IndexError` on an empty tuple, `KeyError` when the first choice is
not a candidate). -/
def seed_ballot (votes : VoteDict) (b : Ballot) : Except String VoteDict :=
  match b with
  | [] => .error "IndexError"
  | c :: _ =>
    if hasKey votes c then .ok (appendBallot votes c b)
    else .error "KeyError"

/-- `for ballot in self._data: votes[ballot[0]].append(ballot)`. -/
def seed_all (votes : VoteDict) : List Ballot → Except String VoteDict
  | [] => .ok votes
  | b :: bs =>
    match seed_ballot votes b with
    | .error e => .error e
    | .ok votes2 => seed_all votes2 bs

/-- `votes = {candidate: [] for candidate in self._candidates}` (the
`for candidate in self._candidates: votes[candidate] = []` loop). -/
def initial_votes (candidates : List String) : VoteDict :=
  candidates.map (fun c => (c, []))

/-- `self.winners.add(w)` (Python set add, modelled on a duplicate-free
list). -/
def add_winner (winners : List String) (w : String) : List String :=
  if winners.contains w then winners else winners ++ [w]

/-- One iteration of the `for _ in range(self._candidates_required)` loop
of `run_election` together with full consumption of the yielded
`_runoff_generator`: seed every ballot by first choice, clear
`self._eliminated`, transfer the accumulated winners' ballots onward
(`self._transfer_votes(votes, self.winners)`), delete the winners'
buckets, and run the seat's runoff. -/
def run_seat (r : Runner) (winners : List String) :
    Except String (List VoteDict × SeatResult) :=
  match seed_all (initial_votes r.candidates) r.data with
  | .error e => .error e
  | .ok votes0 =>
    match transfer_votes votes0 winners [] with
    | .error e => .error e
    | .ok pair =>
      match runoff_seat r.majority r.ballot_size r.data
          (remove_candidates pair.1 winners) pair.2 with
      | .error e => .error e
      | .ok trip => .ok (trip.1, trip.2.1)

/-- The driver loop of `run_election`, fully consumed: one `run_seat`
per required seat, accumulating `self.winners` and `self.notes`.
Returns the snapshot sequence of every seat, the final winners list and
the note log. -/
def run_election_aux (r : Runner) :
    List String → List (String × String) → Nat →
    Except String (List (List VoteDict) × List String × List (String × String))
  | winners, notes, 0 => .ok ([], winners, notes)
  | winners, notes, n + 1 =>
    match run_seat r winners with
    | .error e => .error e
    | .ok sr =>
      match run_election_aux r (add_winner winners sr.2.winner_entry)
          (match sr.2.note with
           | some s => notes ++ [(sr.2.winner_entry, s)]
           | none => notes) n with
      | .error e => .error e
      | .ok out => .ok (sr.1 :: out.1, out.2)

/-- `RankedChoiceRunner.run_election()`, fully consumed by the caller
(winners and notes start empty on a fresh runner). -/
def run_election (r : Runner) :
    Except String (List (List VoteDict) × List String × List (String × String)) :=
  run_election_aux r [] [] r.candidates_required

/-- Total number of ballots currently attributed across all buckets. -/
def total_ballots (votes : VoteDict) : Nat :=
  (votes.map (fun p => p.2.length)).sum

/-- All ballots currently held in some bucket, bucket by bucket. -/
def all_buckets (votes : VoteDict) : List Ballot :=
  (votes.map (·.2)).flatten

/-- A ballot is exhausted w.r.t. an eliminated set when every choice on
it has been eliminated: it is dropped during a transfer. -/
def exhausted (eliminated : List String) (b : Ballot) : Bool :=
  b.all (fun c => eliminated.contains c)

/-- Number of pool ballots exhausted w.r.t. `eliminated`. -/
def exhausted_count (eliminated : List String) (pool : List Ballot) : Nat :=
  (pool.filter (exhausted eliminated)).length

/-! ### Basic lemmas about the `VoteDict` operations -/

theorem hasKey_iff {v : VoteDict} {c : String} : hasKey v c = true ↔ c ∈ keysOf v := by
  simp [hasKey, keysOf, List.any_eq_true, List.mem_map, beq_iff_eq]

theorem contains_iff {l : List String} {c : String} : l.contains c = true ↔ c ∈ l := by
  simp [List.contains, List.elem_iff]

theorem contains_false_iff {l : List String} {c : String} :
    l.contains c = false ↔ c ∉ l := by
  rw [← Bool.not_eq_true, not_iff_not]
  exact contains_iff

theorem keysOf_appendBallot (v : VoteDict) (c : String) (b : Ballot) :
    keysOf (appendBallot v c b) = keysOf v := by
  induction v with
  | nil => rfl
  | cons p ps ih =>
    by_cases h : p.1 == c
    · simp only [appendBallot, keysOf, List.map_cons, if_pos h] at *
      exact ih ▸ rfl
    · simp only [appendBallot, keysOf, List.map_cons, if_neg h] at *
      exact ih ▸ rfl

theorem lookup_appendBallot_self {v : VoteDict} {c : String} (b : Ballot)
    (h : hasKey v c = true) : lookup (appendBallot v c b) c = lookup v c ++ [b] := by
  induction v with
  | nil => simp [hasKey] at h
  | cons p ps ih =>
    cases hc : (p.1 == c) with
    | true => simp [appendBallot, lookup, hc]
    | false =>
      have h2 : hasKey ps c = true := by
        simp only [hasKey, List.any_cons, Bool.or_eq_true] at h
        rcases h with h | h
        · exact absurd h (by simp [hc])
        · simpa [hasKey] using h
      simp only [appendBallot, hc, if_false, Bool.false_eq_true, lookup]
      exact ih h2

theorem lookup_appendBallot_other {v : VoteDict} {c x : String} (b : Ballot)
    (h : x ≠ c) : lookup (appendBallot v c b) x = lookup v x := by
  induction v with
  | nil => rfl
  | cons p ps ih =>
    by_cases hc : p.1 == c
    · have hcx : ((p.1, p.2 ++ [b]).1 == x) = false := by
        simp only [beq_iff_eq] at hc
        simp only [beq_eq_false_iff_ne, ne_eq, hc]
        exact fun hx => h hx.symm
      have hpx : (p.1 == x) = false := by
        simp only [beq_iff_eq] at hc
        simp only [beq_eq_false_iff_ne, ne_eq, hc]
        exact fun hx => h hx.symm
      simp only [appendBallot, if_pos hc, lookup, hcx, hpx, if_false]
      exact ih
    · by_cases hx : p.1 == x
      · simp only [appendBallot, if_neg hc, lookup, hx, if_true]
      · simp only [appendBallot, if_neg hc, lookup, hx, if_false]
        exact ih

theorem lookup_eq_of_mem {v : VoteDict} {p : String × List Ballot}
    (hnd : (keysOf v).Nodup) (hp : p ∈ v) : lookup v p.1 = p.2 := by
  induction v with
  | nil => cases hp
  | cons q qs ih =>
    rcases List.mem_cons.mp hp with rfl | hp2
    · simp [lookup]
    · have hq : (q.1 == p.1) = false := by
        simp only [keysOf, List.map_cons, List.nodup_cons] at hnd
        have hmem : p.1 ∈ keysOf qs := List.mem_map.mpr ⟨p, hp2, rfl⟩
        simp only [beq_eq_false_iff_ne, ne_eq]
        exact fun h => hnd.1 (h ▸ hmem)
      have hnd2 : (keysOf qs).Nodup := by
        simp only [keysOf, List.map_cons, List.nodup_cons] at hnd
        exact hnd.2
      simp only [lookup, hq, if_false]
      exact ih hnd2 hp2

theorem hasKey_remove_false {v : VoteDict} {cands : List String} {c : String}
    (hc : c ∈ cands) : hasKey (remove_candidates v cands) c = false := by
  simp only [hasKey, remove_candidates, List.any_eq_false]
  intro p hp
  rcases List.mem_filter.mp hp with ⟨_, hkeep⟩
  simp only [Bool.not_eq_true'] at hkeep
  have : p.1 ∉ cands := contains_false_iff.mp hkeep
  simp only [Bool.not_eq_true, beq_eq_false_iff_ne, ne_eq]
  exact fun h => this (h ▸ hc)

theorem keysOf_remove_sublist (v : VoteDict) (cands : List String) :
    (keysOf (remove_candidates v cands)).Sublist (keysOf v) := by
  simpa [keysOf, remove_candidates] using
    List.Sublist.map (fun p => p.1) (List.filter_sublist (l := v)
      (p := fun p => !(cands.contains p.1)))

theorem hasKey_eq_of_keysOf_eq {v v2 : VoteDict} {c : String}
    (h : keysOf v2 = keysOf v) : hasKey v2 c = hasKey v c := by
  rw [Bool.eq_iff_iff, hasKey_iff, hasKey_iff, h]

theorem length_eq_of_keysOf_eq {v v2 : VoteDict} (h : keysOf v2 = keysOf v) :
    v2.length = v.length := by
  have h2 := congrArg List.length h
  simpa [keysOf] using h2

/-! ### Keys are preserved by seeding and transfers -/

theorem keysOf_transfer_ballot {E : List String} {v v2 : VoteDict} {b : Ballot}
    (h : transfer_ballot E v b = .ok v2) : keysOf v2 = keysOf v := by
  unfold transfer_ballot at h
  split at h
  · injection h with h
    rw [← h]
  · split at h
    · injection h with h
      rw [← h, keysOf_appendBallot]
    · cases h

theorem keysOf_transfer_from {E : List String} {v v2 : VoteDict} {bs : List Ballot}
    (h : transfer_from E v bs = .ok v2) : keysOf v2 = keysOf v := by
  induction bs generalizing v with
  | nil =>
    simp only [transfer_from] at h
    injection h with h
    rw [← h]
  | cons b bs ih =>
    simp only [transfer_from] at h
    cases htb : transfer_ballot E v b with
    | error e => rw [htb] at h; cases h
    | ok v1 =>
      rw [htb] at h
      rw [ih h, keysOf_transfer_ballot htb]

theorem keysOf_transfer_all {E : List String} {v v2 : VoteDict} {cs : List String}
    (h : transfer_all E v cs = .ok v2) : keysOf v2 = keysOf v := by
  induction cs generalizing v with
  | nil =>
    simp only [transfer_all] at h
    injection h with h
    rw [← h]
  | cons c cs ih =>
    simp only [transfer_all] at h
    by_cases hk : hasKey v c
    · rw [if_pos hk] at h
      cases htf : transfer_from E v (lookup v c) with
      | error e => rw [htf] at h; cases h
      | ok v1 =>
        rw [htf] at h
        rw [ih h, keysOf_transfer_from htf]
    · rw [if_neg hk] at h
      cases h

theorem transfer_votes_ok_elim {v v1 : VoteDict} {cands E E2 : List String}
    (h : transfer_votes v cands E = .ok (v1, E2)) :
    E2 = union_elim E cands ∧ transfer_all (union_elim E cands) v cands = .ok v1 := by
  unfold transfer_votes at h
  split at h
  · cases h
  · rename_i v2 hta
    injection h with h
    have h1 : v2 = v1 := congrArg Prod.fst h
    have h2 : union_elim E cands = E2 := congrArg Prod.snd h
    exact ⟨h2.symm, h1 ▸ hta⟩

theorem keysOf_transfer_votes {v v1 : VoteDict} {cands E E2 : List String}
    (h : transfer_votes v cands E = .ok (v1, E2)) : keysOf v1 = keysOf v :=
  keysOf_transfer_all (transfer_votes_ok_elim h).2

theorem keysOf_seed_ballot {v v2 : VoteDict} {b : Ballot}
    (h : seed_ballot v b = .ok v2) : keysOf v2 = keysOf v := by
  unfold seed_ballot at h
  split at h
  · cases h
  · split at h
    · injection h with h
      rw [← h, keysOf_appendBallot]
    · cases h

theorem keysOf_seed_all {v v2 : VoteDict} {bs : List Ballot}
    (h : seed_all v bs = .ok v2) : keysOf v2 = keysOf v := by
  induction bs generalizing v with
  | nil =>
    simp only [seed_all] at h
    injection h with h
    rw [← h]
  | cons b bs ih =>
    simp only [seed_all] at h
    cases hsb : seed_ballot v b with
    | error e => rw [hsb] at h; cases h
    | ok v1 =>
      rw [hsb] at h
      rw [ih h, keysOf_seed_ballot hsb]

theorem keysOf_initial_votes (candidates : List String) :
    keysOf (initial_votes candidates) = candidates := by
  induction candidates with
  | nil => rfl
  | cons c cs ih =>
    simp only [keysOf, initial_votes, List.map_cons] at *
    rw [ih]

/-! ### The minimum / maximum bucket size is attained -/

theorem foldl_min_mem : ∀ (l : List Nat) (a : Nat),
    l.foldl min a = a ∨ l.foldl min a ∈ l := by
  intro l
  induction l with
  | nil => intro a; exact Or.inl rfl
  | cons x xs ih =>
    intro a
    have hcons : (x :: xs).foldl min a = xs.foldl min (min a x) := rfl
    by_cases hax : a ≤ x
    · have hm : min a x = a := min_eq_left hax
      rcases ih (min a x) with h | h
      · exact Or.inl (by rw [hcons, h, hm])
      · exact Or.inr (by rw [hcons]; exact List.mem_cons_of_mem x h)
    · have hm : min a x = x := min_eq_right (le_of_not_le hax)
      rcases ih (min a x) with h | h
      · refine Or.inr ?_
        rw [hcons, h, hm]
        exact List.mem_cons_self x xs
      · exact Or.inr (by rw [hcons]; exact List.mem_cons_of_mem x h)

theorem foldl_min_le_init : ∀ (l : List Nat) (a : Nat), l.foldl min a ≤ a := by
  intro l
  induction l with
  | nil => intro a; exact Nat.le_refl a
  | cons x xs ih =>
    intro a
    exact Nat.le_trans (ih (min a x)) (Nat.min_le_left a x)

theorem foldl_min_le_mem : ∀ (l : List Nat) (a x : Nat), x ∈ l → l.foldl min a ≤ x := by
  intro l
  induction l with
  | nil => intro a x hx; cases hx
  | cons y ys ih =>
    intro a x hx
    rcases List.mem_cons.mp hx with rfl | hx2
    · exact Nat.le_trans (foldl_min_le_init ys (min a x)) (Nat.min_le_right a x)
    · exact ih (min a y) x hx2

theorem foldl_max_mem : ∀ (l : List Nat) (a : Nat),
    l.foldl max a = a ∨ l.foldl max a ∈ l := by
  intro l
  induction l with
  | nil => intro a; exact Or.inl rfl
  | cons x xs ih =>
    intro a
    have hcons : (x :: xs).foldl max a = xs.foldl max (max a x) := rfl
    by_cases hax : x ≤ a
    · have hm : max a x = a := max_eq_left hax
      rcases ih (max a x) with h | h
      · exact Or.inl (by rw [hcons, h, hm])
      · exact Or.inr (by rw [hcons]; exact List.mem_cons_of_mem x h)
    · have hm : max a x = x := max_eq_right (le_of_not_le hax)
      rcases ih (max a x) with h | h
      · refine Or.inr ?_
        rw [hcons, h, hm]
        exact List.mem_cons_self x xs
      · exact Or.inr (by rw [hcons]; exact List.mem_cons_of_mem x h)

theorem foldl_max_ge_init : ∀ (l : List Nat) (a : Nat), a ≤ l.foldl max a := by
  intro l
  induction l with
  | nil => intro a; exact Nat.le_refl a
  | cons x xs ih =>
    intro a
    exact Nat.le_trans (Nat.le_max_left a x) (ih (max a x))

theorem foldl_max_ge_mem : ∀ (l : List Nat) (a x : Nat), x ∈ l → x ≤ l.foldl max a := by
  intro l
  induction l with
  | nil => intro a x hx; cases hx
  | cons y ys ih =>
    intro a x hx
    rcases List.mem_cons.mp hx with rfl | hx2
    · exact Nat.le_trans (Nat.le_max_right a x) (foldl_max_ge_init ys (max a x))
    · exact ih (max a y) x hx2

theorem min_bucket_attained {v : VoteDict} (h : v ≠ []) :
    ∃ p ∈ v, p.2.length = min_bucket_size v := by
  cases v with
  | nil => exact absurd rfl h
  | cons p ps =>
    have hfold : min_bucket_size (p :: ps)
        = (ps.map (fun q => q.2.length)).foldl min p.2.length := by
      simp [min_bucket_size, List.foldl_map]
    rcases foldl_min_mem (ps.map (fun q => q.2.length)) p.2.length with hm | hm
    · exact ⟨p, List.mem_cons_self p ps, by rw [hfold, hm]⟩
    · rcases List.mem_map.mp hm with ⟨q, hq, hlen⟩
      exact ⟨q, List.mem_cons_of_mem p hq, by rw [hfold, hlen]⟩

theorem max_bucket_attained {v : VoteDict} (h : v ≠ []) :
    ∃ p ∈ v, p.2.length = max_bucket_size v := by
  cases v with
  | nil => exact absurd rfl h
  | cons p ps =>
    have hfold : max_bucket_size (p :: ps)
        = (ps.map (fun q => q.2.length)).foldl max p.2.length := by
      simp [max_bucket_size, List.foldl_map]
    rcases foldl_max_mem (ps.map (fun q => q.2.length)) p.2.length with hm | hm
    · exact ⟨p, List.mem_cons_self p ps, by rw [hfold, hm]⟩
    · rcases List.mem_map.mp hm with ⟨q, hq, hlen⟩
      exact ⟨q, List.mem_cons_of_mem p hq, by rw [hfold, hlen]⟩

theorem select_subset_keys {v : VoteDict} {c : String}
    (h : c ∈ select_removable_candidates v) : c ∈ keysOf v := by
  rcases List.mem_map.mp h with ⟨p, hp, hc⟩
  exact List.mem_map.mpr ⟨p, (List.mem_filter.mp hp).1, hc⟩

theorem select_ne_nil {v : VoteDict} (h : v ≠ []) :
    select_removable_candidates v ≠ [] := by
  rcases min_bucket_attained h with ⟨p, hp, hlen⟩
  have hmem : p.1 ∈ select_removable_candidates v :=
    List.mem_map.mpr ⟨p, List.mem_filter.mpr ⟨hp, by simp [hlen]⟩, rfl⟩
  exact fun hnil => by simp [hnil] at hmem

theorem winner_subset_keys {v : VoteDict} {c : String}
    (h : c ∈ winner_list_of v) : c ∈ keysOf v := by
  rcases List.mem_map.mp h with ⟨p, hp, hc⟩
  exact List.mem_map.mpr ⟨p, (List.mem_filter.mp hp).1, hc⟩

theorem winner_list_ne_nil {v : VoteDict} (h : v ≠ []) :
    winner_list_of v ≠ [] := by
  rcases max_bucket_attained h with ⟨p, hp, hlen⟩
  have hmem : p.1 ∈ winner_list_of v :=
    List.mem_map.mpr ⟨p, List.mem_filter.mpr ⟨hp, by simp [hlen]⟩, rfl⟩
  exact fun hnil => by simp [hnil] at hmem

/-! ### Every executed round shrinks the distribution -/

theorem remove_length_lt {v1 : VoteDict} {elim : List String} {c : String}
    (hc : c ∈ elim) (hk : c ∈ keysOf v1) :
    (remove_candidates v1 elim).length < v1.length := by
  rcases List.mem_map.mp hk with ⟨p, hp, hpc⟩
  refine (List.length_filter_lt_length_iff_exists).mpr ⟨p, hp, ?_⟩
  have hcp : elim.contains p.1 = true := contains_iff.mpr (by rw [hpc]; exact hc)
  simp [hcp]
  rw [hpc]
  exact hc

theorem runoff_round_decreases {v v1 : VoteDict} {E E2 : List String}
    (hlen : (select_removable_candidates v).length ≠ v.length)
    (htr : transfer_votes v (select_removable_candidates v) E = .ok (v1, E2)) :
    (remove_candidates v1 (select_removable_candidates v)).length < v.length := by
  have hvne : v ≠ [] := by
    intro hnil
    subst hnil
    simp [select_removable_candidates] at hlen
  have hene := select_ne_nil hvne
  obtain ⟨c, hc⟩ : ∃ c, c ∈ select_removable_candidates v := by
    cases hsel : select_removable_candidates v with
    | nil => exact absurd hsel hene
    | cons c cs => exact ⟨c, hsel ▸ List.mem_cons_self c cs⟩
  have hkeys := keysOf_transfer_votes htr
  have hk1 : c ∈ keysOf v1 := hkeys ▸ select_subset_keys hc
  calc (remove_candidates v1 (select_removable_candidates v)).length
      < v1.length := remove_length_lt hc hk1
    _ = v.length := length_eq_of_keysOf_eq hkeys

/-! ### Behaviour of the elimination loop -/

theorem filter_length_eq_all {α : Type} {p : α → Bool} :
    ∀ {l : List α}, (l.filter p).length = l.length → ∀ x ∈ l, p x = true := by
  intro l
  induction l with
  | nil => intro _ x hx; cases hx
  | cons y ys ih =>
    intro h x hx
    cases hpy : p y with
    | true =>
      rcases List.mem_cons.mp hx with rfl | hx2
      · exact hpy
      · refine ih ?_ x hx2
        simpa [List.filter_cons, hpy] using h
    | false =>
      exfalso
      have hfe : List.filter p (y :: ys) = List.filter p ys := by
        simp [List.filter_cons, hpy]
      rw [hfe] at h
      have hle : (List.filter p ys).length ≤ ys.length := (List.filter_sublist ys).length_le
      simp only [List.length_cons] at h
      omega

theorem all_buckets_min_of_select_all {v : VoteDict}
    (hsel : (select_removable_candidates v).length = v.length) :
    ∀ p ∈ v, p.2.length = min_bucket_size v := by
  have hlen : (v.filter (fun p => p.2.length == min_bucket_size v)).length = v.length := by
    have := congrArg id hsel
    simpa [select_removable_candidates] using hsel
  intro p hp
  have := filter_length_eq_all hlen p hp
  simpa using this

theorem max_eq_of_all_eq {v : VoteDict} {m : Nat} (hne : v ≠ [])
    (hall : ∀ p ∈ v, p.2.length = m) : max_bucket_size v = m := by
  rcases max_bucket_attained hne with ⟨p, hp, hlen⟩
  rw [← hlen, hall p hp]

theorem winner_list_all_of_select_all {v : VoteDict} (hne : v ≠ [])
    (hsel : (select_removable_candidates v).length = v.length) :
    winner_list_of v = keysOf v := by
  have hall := all_buckets_min_of_select_all hsel
  have hmax := max_eq_of_all_eq hne hall
  have hfe : v.filter (fun p => p.2.length == max_bucket_size v) = v :=
    List.filter_eq_self.mpr (by intro p hp; simp [hall p hp, hmax])
  unfold winner_list_of
  rw [hfe]
  rfl

theorem runoff_loop_fuel_majority {majority : Int} {votes : VoteDict} {E : List String}
    (fuel : Nat) (h : hasMajority majority votes = true) :
    runoff_loop_fuel majority (fuel + 1) votes E = .ok ([], votes, E) := by
  simp [runoff_loop_fuel, h]

theorem runoff_loop_fuel_full_tie {majority : Int} {votes : VoteDict} {E : List String}
    (fuel : Nat) (hmaj : hasMajority majority votes = false)
    (hsel : (select_removable_candidates votes).length = votes.length) :
    runoff_loop_fuel majority (fuel + 1) votes E = .ok ([], votes, E) := by
  simp [runoff_loop_fuel, hmaj, hsel]

theorem length_pos_shape {votes : VoteDict} (hne : votes ≠ []) :
    votes.length = (votes.length - 1) + 1 := by
  cases votes with
  | nil => exact absurd rfl hne
  | cons p ps => simp

theorem runoff_loop_majority {majority : Int} {votes : VoteDict} {E : List String}
    (h : hasMajority majority votes = true) :
    runoff_loop majority votes E = .ok ([], votes, E) := by
  have hne : votes ≠ [] := by
    intro hnil
    subst hnil
    simp [hasMajority] at h
  unfold runoff_loop
  rw [length_pos_shape hne]
  exact runoff_loop_fuel_majority _ h

theorem runoff_loop_full_tie {majority : Int} {votes : VoteDict} {E : List String}
    (hne : votes ≠ []) (hmaj : hasMajority majority votes = false)
    (hsel : (select_removable_candidates votes).length = votes.length) :
    runoff_loop majority votes E = .ok ([], votes, E) := by
  unfold runoff_loop
  rw [length_pos_shape hne]
  exact runoff_loop_fuel_full_tie _ hmaj hsel

theorem runoff_loop_fuel_snaps_lt {majority : Int} :
    ∀ {fuel : Nat} {votes : VoteDict} {E : List String}
      {snaps : List VoteDict} {vf : VoteDict} {ef : List String},
      runoff_loop_fuel majority fuel votes E = .ok (snaps, vf, ef) →
      snaps.length < fuel := by
  intro fuel
  induction fuel with
  | zero =>
    intro votes E snaps vf ef h
    cases h
  | succ n ih =>
    intro votes E snaps vf ef h
    simp only [runoff_loop_fuel] at h
    split at h
    · injection h with h
      have h1 : ([] : List VoteDict) = snaps := congrArg Prod.fst h
      rw [← h1]
      simp
    · split at h
      · injection h with h
        have h1 : ([] : List VoteDict) = snaps := congrArg Prod.fst h
        rw [← h1]
        simp
      · split at h
        · cases h
        · rename_i hpair
          split at h
          · cases h
          · rename_i snaps2 vf2 ef2 hrec
            injection h with h
            have h1 := congrArg Prod.fst h
            simp only at h1
            rw [← h1, List.length_cons]
            exact Nat.succ_lt_succ (ih hrec)

theorem select_singleton_length (p : String × List Ballot) :
    (select_removable_candidates [p]).length = 1 := by
  simp [select_removable_candidates, min_bucket_size]

theorem transfer_ballot_error {E : List String} {v : VoteDict} {b : Ballot} {e : String}
    (h : transfer_ballot E v b = .error e) : e = "KeyError" := by
  unfold transfer_ballot at h
  split at h
  · cases h
  · split at h
    · cases h
    · injection h with h
      rw [← h]

theorem transfer_from_error {E : List String} {e : String} :
    ∀ {v : VoteDict} {bs : List Ballot},
      transfer_from E v bs = .error e → e = "KeyError" := by
  intro v bs
  induction bs generalizing v with
  | nil => intro h; cases h
  | cons b bs ih =>
    intro h
    simp only [transfer_from] at h
    split at h
    · rename_i e2 htb
      injection h with h
      rw [← h]
      exact transfer_ballot_error htb
    · exact ih h

theorem transfer_all_error {E : List String} {e : String} :
    ∀ {v : VoteDict} {cs : List String},
      transfer_all E v cs = .error e → e = "KeyError" := by
  intro v cs
  induction cs generalizing v with
  | nil => intro h; cases h
  | cons c cs ih =>
    intro h
    simp only [transfer_all] at h
    split at h
    · split at h
      · rename_i e2 htf
        injection h with h
        rw [← h]
        exact transfer_from_error htf
      · exact ih h
    · injection h with h
      rw [← h]

theorem transfer_votes_error {v : VoteDict} {cands E : List String} {e : String}
    (h : transfer_votes v cands E = .error e) : e = "KeyError" := by
  unfold transfer_votes at h
  split at h
  · rename_i e2 hta
    injection h with h
    rw [← h]
    exact transfer_all_error hta
  · cases h

theorem runoff_loop_fuel_no_fuel_error {majority : Int} :
    ∀ {fuel : Nat} {votes : VoteDict} {E : List String},
      1 ≤ fuel → votes.length ≤ fuel →
      runoff_loop_fuel majority fuel votes E ≠ .error "out of fuel" := by
  intro fuel
  induction fuel with
  | zero =>
    intro votes E h1 _
    omega
  | succ n ih =>
    intro votes E _ hlen h
    simp only [runoff_loop_fuel] at h
    split at h
    · cases h
    · split at h
      · cases h
      · rename_i hmaj hsel
        split at h
        · -- transfer returned KeyError, not fuel exhaustion
          rename_i e2 htr
          injection h with h
          have he2 := transfer_votes_error htr
          rw [he2] at h
          exact absurd h (by decide)
        · rename_i v1 E2 htr
          -- the executed round: the distribution shrinks
          have hdec := runoff_round_decreases hsel htr
          have hvne : votes ≠ [] := by
            intro hnil
            subst hnil
            simp [select_removable_candidates] at hsel
          have hv2 : 2 ≤ votes.length := by
            rcases votes with _ | ⟨p, ps⟩
            · exact absurd rfl hvne
            · rcases ps with _ | ⟨q, qs⟩
              · exact absurd (select_singleton_length p) hsel
              · simp
          split at h
          · rename_i hrec
            have : runoff_loop_fuel majority n
                (remove_candidates v1 (select_removable_candidates votes)) E2
                ≠ .error "out of fuel" := by
              refine ih ?_ ?_
              · omega
              · omega
            rw [h] at hrec
            exact this hrec
          · cases h

theorem runoff_loop_snaps_bound {majority : Int} {votes : VoteDict} {E : List String}
    {snaps : List VoteDict} {vf : VoteDict} {ef : List String}
    (h : runoff_loop majority votes E = .ok (snaps, vf, ef)) :
    snaps.length + 1 ≤ votes.length := by
  have := runoff_loop_fuel_snaps_lt h
  omega

/-! ### Inversion lemmas for the seat pipeline -/

theorem runoff_seat_ok_inv {majority : Int} {bs : Nat} {data : List Ballot}
    {votes : VoteDict} {E : List String} {snaps : List VoteDict}
    {res : SeatResult} {ef : List String}
    (h : runoff_seat majority bs data votes E = .ok (snaps, res, ef)) :
    ∃ loopsnaps vf, runoff_loop majority votes E = .ok (loopsnaps, vf, ef) ∧
      finish_runoff bs data vf = .ok res ∧ snaps = votes :: loopsnaps := by
  unfold runoff_seat at h
  split at h
  · cases h
  · rename_i loopsnaps vf ef2 hloop
    split at h
    · cases h
    · rename_i res2 hfin
      injection h with h
      have h1 : copy_vote_dict votes :: loopsnaps = snaps := congrArg Prod.fst h
      have h23 := congrArg Prod.snd h
      have h2 : res2 = res := congrArg Prod.fst h23
      have h3 : ef2 = ef := congrArg Prod.snd h23
      subst h2
      subst h3
      exact ⟨loopsnaps, vf, hloop, hfin, h1.symm⟩

/-! ### Counting helpers -/

/-- Multiplicity of the ballot `b` in a list of ballots. -/
def bcount (b : Ballot) (l : List Ballot) : Nat :=
  (l.filter (fun x => decide (x = b))).length

theorem bcount_nil (b : Ballot) : bcount b [] = 0 := rfl

theorem bcount_cons (b x : Ballot) (xs : List Ballot) :
    bcount b (x :: xs) = (if x = b then 1 else 0) + bcount b xs := by
  by_cases h : x = b
  · simp [bcount, List.filter_cons, h, Nat.add_comm]
  · simp [bcount, List.filter_cons, h]

theorem bcount_append (b : Ballot) (l1 l2 : List Ballot) :
    bcount b (l1 ++ l2) = bcount b l1 + bcount b l2 := by
  simp [bcount, List.filter_append]

theorem bcount_filter_ite (p : Ballot → Bool) (l : List Ballot) (b : Ballot) :
    bcount b (l.filter p) = if p b = true then bcount b l else 0 := by
  induction l with
  | nil => by_cases hpb : p b = true <;> simp [bcount, hpb]
  | cons x xs ih =>
    by_cases hpx : p x = true
    · rw [List.filter_cons, if_pos hpx, bcount_cons, ih, bcount_cons]
      by_cases hxb : x = b
      · have hpb : p b = true := hxb ▸ hpx
        simp [hxb, hpb]
      · simp [hxb]
    · rw [List.filter_cons, if_neg hpx, ih, bcount_cons]
      by_cases hxb : x = b
      · subst hxb
        simp [hpx]
      · simp [hxb]

theorem bcount_flatten_map {β : Type} (f : β → List Ballot) (l : List β) (b : Ballot) :
    bcount b ((l.map f).flatten) = (l.map (fun e => bcount b (f e))).sum := by
  induction l with
  | nil => rfl
  | cons x xs ih =>
    simp only [List.map_cons, List.flatten_cons, bcount_append, List.sum_cons, ih]

theorem bcount_eq_of_perm {l1 l2 : List Ballot} (h : l1.Perm l2) (b : Ballot) :
    bcount b l1 = bcount b l2 :=
  (h.filter _).length_eq

theorem perm_of_bcount_eq {l1 l2 : List Ballot}
    (h : ∀ b, bcount b l1 = bcount b l2) : l1.Perm l2 := by
  rw [List.perm_iff_count]
  intro a
  have h1 : ∀ (l : List Ballot),
      @List.count Ballot (@instBEqOfDecidableEq Ballot inferInstance) a l = bcount a l := by
    intro l
    rw [show @List.count Ballot (@instBEqOfDecidableEq Ballot inferInstance) a
        = List.countP (fun x => decide (x = a)) from rfl]
    rw [List.countP_eq_length_filter]
    rfl
  rw [h1 l1, h1 l2]
  exact h a

theorem sum_ite_mem {β : Type} [DecidableEq β] :
    ∀ {l : List β}, l.Nodup → ∀ (y : β) (n : Nat),
      (l.map (fun e => if y = e then n else 0)).sum = if y ∈ l then n else 0 := by
  intro l
  induction l with
  | nil => intro _ y n; simp
  | cons x xs ih =>
    intro hnd y n
    rcases List.nodup_cons.mp hnd with ⟨hx, hnd2⟩
    by_cases hyx : y = x
    · subst hyx
      simp [ih hnd2, hx]
    · simp only [List.map_cons, List.sum_cons, if_neg hyx, ih hnd2, List.mem_cons]
      simp [hyx]

/-! ### Facts about the first remaining choice on a ballot -/

theorem first_valid_cons {E : List String} {x : String} {xs : List String} :
    first_valid_choice E (x :: xs)
      = if E.contains x = true then first_valid_choice E xs else some x := by
  by_cases hx : x ∈ E
  · rw [if_pos (contains_iff.mpr hx)]
    simp [first_valid_choice, List.find?_cons, hx]
  · rw [if_neg (by simp [hx])]
    simp [first_valid_choice, List.find?_cons, hx]

theorem first_valid_not_elim {E : List String} {b : Ballot} {c : String}
    (h : first_valid_choice E b = some c) : E.contains c = false := by
  have h2 := List.find?_some h
  simp only [Bool.not_eq_true, Bool.not_eq_true', decide_eq_false_iff_not] at h2
  exact h2

theorem first_valid_mem {E : List String} {b : Ballot} {c : String}
    (h : first_valid_choice E b = some c) : c ∈ b :=
  List.mem_of_find?_eq_some h

theorem first_valid_mono {E E2 : List String} {b : Ballot} {c : String}
    (hsub : ∀ x, x ∈ E → x ∈ E2)
    (h : first_valid_choice E b = some c) (hc : c ∉ E2) :
    first_valid_choice E2 b = some c := by
  induction b with
  | nil => simp [first_valid_choice] at h
  | cons x xs ih =>
    by_cases hx : x ∈ E
    · rw [first_valid_cons, if_pos (contains_iff.mpr hx)] at h
      rw [first_valid_cons, if_pos (contains_iff.mpr (hsub x hx))]
      exact ih h
    · rw [first_valid_cons, if_neg (by simp [hx])] at h
      injection h with h
      have hx2 : x ∉ E2 := by rw [h]; exact hc
      rw [first_valid_cons, if_neg (by simp [hx2])]
      rw [h]

theorem first_valid_split {E E2 : List String} {b : Ballot} {c : String}
    (hsub : ∀ x, x ∈ E → x ∈ E2)
    (h : first_valid_choice E2 b = some c) :
    first_valid_choice E b = some c ∨
      ∃ e, first_valid_choice E b = some e ∧ e ∈ E2 := by
  induction b with
  | nil => simp [first_valid_choice] at h
  | cons x xs ih =>
    by_cases hx : x ∈ E
    · rw [first_valid_cons, if_pos (contains_iff.mpr (hsub x hx))] at h
      rw [first_valid_cons, if_pos (contains_iff.mpr hx)]
      exact ih h
    · rw [first_valid_cons, if_neg (by simp [hx])]
      by_cases hx2 : x ∈ E2
      · exact Or.inr ⟨x, rfl, hx2⟩
      · rw [first_valid_cons, if_neg (by simp [hx2])] at h
        exact Or.inl h

theorem first_valid_none_mono {E E2 : List String} {b : Ballot}
    (hsub : ∀ x, x ∈ E → x ∈ E2)
    (h : first_valid_choice E b = none) : first_valid_choice E2 b = none := by
  rw [first_valid_choice, List.find?_eq_none] at h ⊢
  intro x hx
  have hxE : x ∈ E := by
    have h2 := h x hx
    simp only [Bool.not_eq_true, Bool.not_eq_true', decide_eq_false_iff_not,
      not_not] at h2
    simpa using h2
  have hx2 : x ∈ E2 := hsub x hxE
  simp [hx2]

theorem exhausted_iff_first_none {E : List String} {b : Ballot} :
    exhausted E b = true ↔ first_valid_choice E b = none := by
  rw [exhausted, first_valid_choice, List.find?_eq_none, List.all_eq_true]
  constructor
  · intro h x hx
    have hxE := contains_iff.mp (h x hx)
    simp [hxE]
  · intro h x hx
    have h2 := h x hx
    simp only [Bool.not_eq_true, Bool.not_eq_true', decide_eq_false_iff_not,
      not_not] at h2
    exact contains_iff.mpr (by simpa using h2)

theorem mem_union_elim {E new : List String} {x : String} :
    x ∈ union_elim E new ↔ x ∈ E ∨ x ∈ new := by
  simp only [union_elim, List.mem_append, List.mem_filter]
  constructor
  · rintro (h | ⟨h, _⟩)
    · exact Or.inl h
    · exact Or.inr h
  · rintro (h | h)
    · exact Or.inl h
    · by_cases hE : x ∈ E
      · exact Or.inl hE
      · exact Or.inr ⟨h, by simp [hE]⟩

/-! ### What a transfer does to each bucket -/

theorem filter_first_eq_nil {E : List String} {e : String} (he : e ∈ E)
    (l : List Ballot) :
    l.filter (fun b => first_valid_choice E b == some e) = [] := by
  refine List.filter_eq_nil_iff.mpr ?_
  intro b _
  cases hfv : first_valid_choice E b with
  | none => simp
  | some c =>
    have hc : c ∉ E := contains_false_iff.mp (first_valid_not_elim hfv)
    simp only [beq_iff_eq, Option.some.injEq]
    exact fun hce => hc (hce ▸ he)

theorem transfer_from_lookup {E : List String} :
    ∀ {v v2 : VoteDict} {bs : List Ballot},
      transfer_from E v bs = .ok v2 →
      ∀ x, lookup v2 x
        = lookup v x ++ bs.filter (fun b => first_valid_choice E b == some x) := by
  intro v v2 bs
  induction bs generalizing v with
  | nil =>
    intro h x
    simp only [transfer_from] at h
    injection h with h
    rw [← h]
    simp
  | cons b bs ih =>
    intro h x
    simp only [transfer_from] at h
    cases htb : transfer_ballot E v b with
    | error e => rw [htb] at h; cases h
    | ok v1 =>
      rw [htb] at h
      have hrec := ih h x
      unfold transfer_ballot at htb
      split at htb
      · rename_i hfv
        injection htb with htb
        have hfc : ((b :: bs).filter (fun b2 => first_valid_choice E b2 == some x))
            = bs.filter (fun b2 => first_valid_choice E b2 == some x) := by
          simp [List.filter_cons, hfv]
        rw [hfc, hrec, ← htb]
      · rename_i choice hfv
        split at htb
        · rename_i hk
          injection htb with htb
          by_cases hxc : x = choice
          · subst hxc
            have hl1 : lookup v1 x = lookup v x ++ [b] := by
              rw [← htb]
              exact lookup_appendBallot_self b hk
            have hfc : ((b :: bs).filter (fun b2 => first_valid_choice E b2 == some x))
                = b :: bs.filter (fun b2 => first_valid_choice E b2 == some x) := by
              simp [List.filter_cons, hfv]
            rw [hfc, hrec, hl1, List.append_assoc]
            rfl
          · have hl1 : lookup v1 x = lookup v x := by
              rw [← htb]
              exact lookup_appendBallot_other b hxc
            have hfc : ((b :: bs).filter (fun b2 => first_valid_choice E b2 == some x))
                = bs.filter (fun b2 => first_valid_choice E b2 == some x) := by
              have hbx : (first_valid_choice E b == some x) = false := by
                rw [hfv]
                have hne : some choice ≠ some x := by
                  intro hce
                  injection hce with h2
                  exact hxc h2.symm
                exact beq_eq_false_iff_ne.mpr hne
              simp [List.filter_cons, hbx]
            rw [hfc, hrec, hl1]
        · cases htb

theorem transfer_all_lookup {E : List String} :
    ∀ {v v2 : VoteDict} {cs : List String},
      transfer_all E v cs = .ok v2 →
      (∀ c ∈ cs, c ∈ E) →
      ∀ x, lookup v2 x = lookup v x ++
        (cs.map (fun e => (lookup v e).filter
          (fun b => first_valid_choice E b == some x))).flatten := by
  intro v v2 cs
  induction cs generalizing v with
  | nil =>
    intro h _ x
    simp only [transfer_all] at h
    injection h with h
    rw [← h]
    simp
  | cons c cs ih =>
    intro h hsub x
    simp only [transfer_all] at h
    by_cases hk : hasKey v c
    · rw [if_pos hk] at h
      cases htf : transfer_from E v (lookup v c) with
      | error e => rw [htf] at h; cases h
      | ok v1 =>
        rw [htf] at h
        have hsub2 : ∀ e ∈ cs, e ∈ E := fun e he => hsub e (List.mem_cons_of_mem c he)
        have hrec := ih h hsub2 x
        have hfrom := transfer_from_lookup htf
        -- the buckets of candidates still to process are untouched
        have hsame : ∀ e ∈ cs, lookup v1 e = lookup v e := by
          intro e he
          rw [hfrom e, filter_first_eq_nil (hsub e (List.mem_cons_of_mem c he))]
          simp
        have hmapeq :
            (cs.map (fun e => (lookup v1 e).filter
              (fun b => first_valid_choice E b == some x)))
            = (cs.map (fun e => (lookup v e).filter
              (fun b => first_valid_choice E b == some x))) := by
          refine List.map_eq_map_iff.mpr ?_
          intro e he
          rw [hsame e he]
        rw [hrec, hmapeq, hfrom x]
        simp [List.append_assoc]
    · rw [if_neg hk] at h
      cases h

theorem transfer_votes_lookup {v v1 : VoteDict} {cands E E2 : List String}
    (h : transfer_votes v cands E = .ok (v1, E2)) :
    E2 = union_elim E cands ∧
    ∀ x, lookup v1 x = lookup v x ++
      (cands.map (fun e => (lookup v e).filter
        (fun b => first_valid_choice E2 b == some x))).flatten := by
  obtain ⟨hE2, hta⟩ := transfer_votes_ok_elim h
  subst hE2
  refine ⟨rfl, ?_⟩
  exact transfer_all_lookup hta (fun c hc => mem_union_elim.mpr (Or.inr hc))

/-! ### The per-seat conservation invariant -/

/-- The inductive invariant of one seat's runoff, relative to the seat's
full ballot pool and the cumulative eliminated set `E`:
(i) each remaining candidate's bucket holds, as a multiset, exactly the
pool ballots whose first non-eliminated choice is that candidate;
(ii) every name on every pool ballot is a remaining key or eliminated;
(iii) the keys are duplicate-free; (iv) no remaining key is eliminated. -/
def seat_invariant (pool : List Ballot) (E : List String) (votes : VoteDict) : Prop :=
  (∀ p ∈ votes, p.2.Perm (pool.filter (fun b => first_valid_choice E b == some p.1)))
  ∧ (∀ b ∈ pool, ∀ c ∈ b, c ∈ keysOf votes ∨ c ∈ E)
  ∧ (keysOf votes).Nodup
  ∧ (∀ c ∈ keysOf votes, c ∉ E)

theorem inv_lookup_perm {pool : List Ballot} {E : List String} {votes : VoteDict}
    (hinv : seat_invariant pool E votes) {c : String} (hc : c ∈ keysOf votes) :
    (lookup votes c).Perm
      (pool.filter (fun b => first_valid_choice E b == some c)) := by
  rcases List.mem_map.mp hc with ⟨p, hp, hpc⟩
  subst hpc
  rw [lookup_eq_of_mem hinv.2.2.1 hp]
  exact hinv.1 p hp

theorem mem_keys_remove {v : VoteDict} {cands : List String} {c : String} :
    c ∈ keysOf (remove_candidates v cands) ↔ c ∈ keysOf v ∧ c ∉ cands := by
  constructor
  · intro h
    rcases List.mem_map.mp h with ⟨p, hp, hpc⟩
    rcases List.mem_filter.mp hp with ⟨hpv, hcond⟩
    subst hpc
    refine ⟨List.mem_map.mpr ⟨p, hpv, rfl⟩, ?_⟩
    simp only [Bool.not_eq_true'] at hcond
    exact contains_false_iff.mp hcond
  · rintro ⟨h1, h2⟩
    rcases List.mem_map.mp h1 with ⟨p, hp, hpc⟩
    subst hpc
    refine List.mem_map.mpr ⟨p, List.mem_filter.mpr ⟨hp, ?_⟩, rfl⟩
    simp [h2]

theorem invariant_step {pool : List Ballot} {E : List String} {votes : VoteDict}
    (hinv : seat_invariant pool E votes)
    {elim : List String} (helim_sub : ∀ c ∈ elim, c ∈ keysOf votes)
    (helim_nd : elim.Nodup)
    {v1 : VoteDict} {E2 : List String}
    (htr : transfer_votes votes elim E = .ok (v1, E2)) :
    seat_invariant pool E2 (remove_candidates v1 elim) := by
  obtain ⟨hE2, hlook⟩ := transfer_votes_lookup htr
  have hkeys1 : keysOf v1 = keysOf votes := keysOf_transfer_votes htr
  obtain ⟨hbuck, hcov, hnd, hdisj⟩ := hinv
  have hinv2 : seat_invariant pool E votes := ⟨hbuck, hcov, hnd, hdisj⟩
  have hE2mem : ∀ x, x ∈ E2 ↔ x ∈ E ∨ x ∈ elim := fun x => by
    rw [hE2]; exact mem_union_elim
  have hEsubE2 : ∀ x, x ∈ E → x ∈ E2 := fun x hx => (hE2mem x).mpr (Or.inl hx)
  have helimE2 : ∀ x, x ∈ elim → x ∈ E2 := fun x hx => (hE2mem x).mpr (Or.inr hx)
  have hnd1 : (keysOf v1).Nodup := hkeys1 ▸ hnd
  refine ⟨?_, ?_, ?_, ?_⟩
  · -- (i): the bucket of each surviving candidate
    intro p hp
    rcases List.mem_filter.mp hp with ⟨hpv1, hcond⟩
    simp only [Bool.not_eq_true'] at hcond
    have hpelim : p.1 ∉ elim := contains_false_iff.mp hcond
    have hpkeys : p.1 ∈ keysOf votes := by
      rw [← hkeys1]
      exact List.mem_map.mpr ⟨p, hpv1, rfl⟩
    have hpE : p.1 ∉ E := hdisj p.1 hpkeys
    have hpE2 : p.1 ∉ E2 := by
      intro hx
      rcases (hE2mem p.1).mp hx with h | h
      · exact hpE h
      · exact hpelim h
    have hp2 : p.2 = lookup v1 p.1 := (lookup_eq_of_mem hnd1 hpv1).symm
    rw [hp2, hlook p.1]
    refine perm_of_bcount_eq ?_
    intro b
    rw [bcount_append, bcount_filter_ite, bcount_flatten_map]
    have hL1 : bcount b (lookup votes p.1)
        = if (first_valid_choice E b == some p.1) = true then bcount b pool else 0 := by
      rw [bcount_eq_of_perm (inv_lookup_perm hinv2 hpkeys), bcount_filter_ite]
    rw [hL1]
    by_cases h2 : (first_valid_choice E2 b == some p.1) = true
    · -- the ballot now belongs to p.1
      have hfE2 : first_valid_choice E2 b = some p.1 := beq_iff_eq.mp h2
      have hmap0 : (elim.map (fun e =>
            bcount b ((lookup votes e).filter
              (fun b2 => first_valid_choice E2 b2 == some p.1))))
          = elim.map (fun e =>
              if (first_valid_choice E b == some e) = true then bcount b pool else 0) := by
        refine List.map_eq_map_iff.mpr ?_
        intro e he
        rw [bcount_filter_ite, if_pos h2,
          bcount_eq_of_perm (inv_lookup_perm hinv2 (helim_sub e he)), bcount_filter_ite]
      rw [hmap0, if_pos h2]
      cases hfE : first_valid_choice E b with
      | none =>
        have hn2 := first_valid_none_mono hEsubE2 hfE
        rw [hfE2] at hn2
        cases hn2
      | some y =>
        have hmap1 : (elim.map (fun e =>
              if ((some y : Option String) == some e) = true then bcount b pool else 0))
            = elim.map (fun e => if y = e then bcount b pool else 0) := by
          refine List.map_eq_map_iff.mpr ?_
          intro e _
          by_cases hye : y = e
          · rw [if_pos (by rw [hye]; exact beq_iff_eq.mpr rfl), if_pos hye]
          · have hne : ((some y : Option String) == some e) = false := by
              refine beq_eq_false_iff_ne.mpr ?_
              intro hx
              injection hx with hx
              exact hye hx
            rw [hne]
            simp [hye]
        rw [hmap1, sum_ite_mem helim_nd y (bcount b pool)]
        by_cases hyp : y = p.1
        · subst hyp
          rw [if_pos (beq_iff_eq.mpr rfl), if_neg hpelim]
          exact Nat.add_zero _
        · have hby : (some y == some p.1) = false := by
            refine beq_eq_false_iff_ne.mpr ?_
            intro hx
            injection hx with hx
            exact hyp hx
          rw [hby]
          have hyelim : y ∈ elim := by
            rcases first_valid_split hEsubE2 hfE2 with hcase | ⟨e, hfe, heE2⟩
            · rw [hfE] at hcase
              injection hcase with hcase
              exact absurd hcase hyp
            · rw [hfE] at hfe
              injection hfe with hfe
              subst hfe
              rcases (hE2mem y).mp heE2 with hyE | hyel
              · exact absurd hyE (contains_false_iff.mp (first_valid_not_elim hfE))
              · exact hyel
          rw [if_pos hyelim]
          simp
    · -- the ballot does not belong to p.1 after this round
      have hmap0 : (elim.map (fun e =>
            bcount b ((lookup votes e).filter
              (fun b2 => first_valid_choice E2 b2 == some p.1))))
          = elim.map (fun _ => 0) := by
        refine List.map_eq_map_iff.mpr ?_
        intro e _
        rw [bcount_filter_ite, if_neg h2]
      rw [hmap0, if_neg h2]
      have hfalse : (first_valid_choice E b == some p.1) = false := by
        cases hfb : (first_valid_choice E b == some p.1) with
        | false => rfl
        | true =>
          exfalso
          have hfeq : first_valid_choice E b = some p.1 := beq_iff_eq.mp hfb
          have := first_valid_mono hEsubE2 hfeq hpE2
          exact h2 (beq_iff_eq.mpr this)
      rw [hfalse]
      simp
  · -- (ii): pool-wide name coverage
    intro b hb c hc
    rcases hcov b hb c hc with hck | hcE
    · by_cases hce : c ∈ elim
      · exact Or.inr (helimE2 c hce)
      · refine Or.inl (mem_keys_remove.mpr ⟨?_, hce⟩)
        rw [hkeys1]
        exact hck
    · exact Or.inr (hEsubE2 c hcE)
  · -- (iii): keys stay duplicate-free
    exact List.Nodup.sublist (keysOf_remove_sublist v1 elim) hnd1
  · -- (iv): keys stay disjoint from the eliminated set
    intro c hckeys hcE2
    obtain ⟨hck1, hcelim⟩ := mem_keys_remove.mp hckeys
    have hckv : c ∈ keysOf votes := by rw [← hkeys1]; exact hck1
    rcases (hE2mem c).mp hcE2 with h | h
    · exact hdisj c hckv h
    · exact hcelim h

/-! ### Conservation consequences of the invariant -/

theorem countP_or_disjoint {α : Type} {p q : α → Bool} :
    ∀ {l : List α}, (∀ x ∈ l, ¬(p x = true ∧ q x = true)) →
      l.countP (fun x => p x || q x) = l.countP p + l.countP q := by
  intro l
  induction l with
  | nil => intro _; simp
  | cons x xs ih =>
    intro h
    rw [List.countP_cons, List.countP_cons, List.countP_cons,
      ih (fun y hy => h y (List.mem_cons_of_mem _ hy))]
    have hdis := h x (List.mem_cons_self x xs)
    cases hpx : p x with
    | true =>
      have hqx : q x = false := by
        cases hq2 : q x with
        | false => rfl
        | true => exact absurd ⟨hpx, hq2⟩ hdis
      simp [hpx, hqx]
      omega
    | false =>
      cases hqx : q x with
      | true => simp [hpx, hqx]; omega
      | false => simp [hpx, hqx]

theorem select_nodup {v : VoteDict} (hnd : (keysOf v).Nodup) :
    (select_removable_candidates v).Nodup := by
  refine List.Nodup.sublist ?_ hnd
  exact List.Sublist.map (fun p => p.1) (List.filter_sublist v)

theorem sum_countP_first_eq {pool : List Ballot} {E : List String} :
    ∀ {ks : List String}, ks.Nodup →
      (ks.map (fun k => pool.countP
          (fun b => first_valid_choice E b == some k))).sum
        = pool.countP (fun b =>
            match first_valid_choice E b with
            | some c => ks.contains c
            | none => false) := by
  intro ks
  induction ks with
  | nil =>
    intro _
    simp only [List.map_nil, List.sum_nil]
    rw [show (pool.countP (fun b =>
        match first_valid_choice E b with
        | some c => List.contains [] c
        | none => false)) = pool.countP (fun _ => false) from
      List.countP_congr (by
        intro b _
        cases hfb : first_valid_choice E b <;> simp)]
    simp
  | cons k ks ih =>
    intro hnd
    rcases List.nodup_cons.mp hnd with ⟨hk, hnd2⟩
    rw [List.map_cons, List.sum_cons, ih hnd2]
    rw [← countP_or_disjoint (p := fun b => first_valid_choice E b == some k)
      (q := fun b => match first_valid_choice E b with
        | some c => ks.contains c
        | none => false) ?_]
    · refine List.countP_congr ?_
      intro b _
      cases hfb : first_valid_choice E b with
      | none => simp
      | some c =>
        constructor
        · intro hor
          rcases Bool.or_eq_true _ _ |>.mp hor with h1 | h1
          · have : c = k := by
              have h2 := beq_iff_eq.mp h1
              injection h2 with h2
            simp [contains_iff, this]
          · simp only [contains_iff] at h1 ⊢
            simp [List.mem_cons, h1]
        · intro hmem
          have : c ∈ k :: ks := contains_iff.mp (by simpa using hmem)
          rcases List.mem_cons.mp this with rfl | h1
          · refine Bool.or_eq_true _ _ |>.mpr (Or.inl ?_)
            exact beq_iff_eq.mpr rfl
          · refine Bool.or_eq_true _ _ |>.mpr (Or.inr ?_)
            simpa [contains_iff] using h1
    · intro b _ hand
      rcases hand with ⟨h1, h2⟩
      dsimp only at h1 h2
      cases hfb : first_valid_choice E b with
      | none => rw [hfb] at h1; cases h1
      | some c =>
        rw [hfb] at h1 h2
        have hck : c = k := by
          have h3 := beq_iff_eq.mp h1
          injection h3 with h3
        subst hck
        exact hk (contains_iff.mp h2)

theorem invariant_conservation {pool : List Ballot} {E : List String}
    {votes : VoteDict} (hinv : seat_invariant pool E votes) :
    total_ballots votes + exhausted_count E pool = pool.length := by
  obtain ⟨hbuck, hcov, hnd, hdisj⟩ := hinv
  have hlen : (votes.map (fun p => p.2.length))
      = votes.map (fun p => pool.countP
          (fun b => first_valid_choice E b == some p.1)) := by
    refine List.map_eq_map_iff.mpr ?_
    intro p hp
    rw [(hbuck p hp).length_eq, ← List.countP_eq_length_filter]
  have hmm : votes.map (fun p => pool.countP
        (fun b => first_valid_choice E b == some p.1))
      = (keysOf votes).map (fun k => pool.countP
          (fun b => first_valid_choice E b == some k)) := by
    rw [keysOf, List.map_map]
    rfl
  rw [total_ballots, hlen, hmm, sum_countP_first_eq hnd]
  have hcov2 : pool.countP (fun b =>
        match first_valid_choice E b with
        | some c => (keysOf votes).contains c
        | none => false)
      = pool.countP (fun b => (first_valid_choice E b).isSome) := by
    refine List.countP_congr ?_
    intro b hb
    cases hfb : first_valid_choice E b with
    | none => simp
    | some c =>
      have hcE : c ∉ E := contains_false_iff.mp (first_valid_not_elim hfb)
      have hck : c ∈ keysOf votes :=
        (hcov b hb c (first_valid_mem hfb)).resolve_right (fun h => hcE h)
      simp [hck]
  rw [hcov2]
  have hex : exhausted_count E pool
      = pool.countP (fun b => !(first_valid_choice E b).isSome) := by
    rw [exhausted_count, ← List.countP_eq_length_filter]
    refine List.countP_congr ?_
    intro b _
    rw [exhausted_iff_first_none]
    cases hfb : first_valid_choice E b <;> simp
  rw [hex]
  have hsplit := List.length_eq_countP_add_countP
    (fun b => (first_valid_choice E b).isSome) pool
  have hnot : pool.countP (fun b => decide ¬((first_valid_choice E b).isSome = true))
      = pool.countP (fun b => !(first_valid_choice E b).isSome) := by
    refine List.countP_congr ?_
    intro b _
    cases hfb : first_valid_choice E b <;> simp
  omega

theorem invariant_bucket_count_le {pool : List Ballot} {E : List String}
    {votes : VoteDict} (hinv : seat_invariant pool E votes) (b : Ballot) :
    bcount b (all_buckets votes) ≤ bcount b pool := by
  obtain ⟨hbuck, hcov, hnd, hdisj⟩ := hinv
  rw [all_buckets, bcount_flatten_map (fun p => p.2) votes b]
  have hmap : votes.map (fun p => bcount b p.2)
      = votes.map (fun p => if (first_valid_choice E b == some p.1) = true
          then bcount b pool else 0) := by
    refine List.map_eq_map_iff.mpr ?_
    intro p hp
    rw [bcount_eq_of_perm (hbuck p hp), bcount_filter_ite]
  have hmm : votes.map (fun p => if (first_valid_choice E b == some p.1) = true
        then bcount b pool else 0)
      = (keysOf votes).map (fun k => if (first_valid_choice E b == some k) = true
          then bcount b pool else 0) := by
    rw [keysOf, List.map_map]
    rfl
  rw [hmap, hmm]
  cases hfb : first_valid_choice E b with
  | none =>
    rw [show ((keysOf votes).map (fun k =>
        if ((none : Option String) == some k) = true then bcount b pool else 0))
        = (keysOf votes).map (fun _ => (0 : Nat)) from
      List.map_eq_map_iff.mpr (by intro k _; simp)]
    simp
  | some y =>
    rw [show ((keysOf votes).map (fun k =>
        if ((some y : Option String) == some k) = true then bcount b pool else 0))
        = (keysOf votes).map (fun k => if y = k then bcount b pool else 0) from
      List.map_eq_map_iff.mpr (by
        intro k _
        by_cases hyk : y = k
        · rw [if_pos (by rw [hyk]; exact beq_iff_eq.mpr rfl), if_pos hyk]
        · have hne : ((some y : Option String) == some k) = false := by
            refine beq_eq_false_iff_ne.mpr ?_
            intro hx
            injection hx with hx
            exact hyk hx
          rw [hne]
          simp [hyk])]
    rw [sum_ite_mem hnd y (bcount b pool)]
    by_cases hy : y ∈ keysOf votes
    · rw [if_pos hy]
    · rw [if_neg hy]
      exact Nat.zero_le _

/-! ### The invariant holds at every snapshot of the loop -/

theorem runoff_loop_fuel_invariant {majority : Int} {pool : List Ballot} :
    ∀ {fuel : Nat} {votes : VoteDict} {E : List String}
      {snaps : List VoteDict} {vf : VoteDict} {ef : List String},
      seat_invariant pool E votes →
      runoff_loop_fuel majority fuel votes E = .ok (snaps, vf, ef) →
      ∀ s ∈ snaps, ∃ E3, seat_invariant pool E3 s := by
  intro fuel
  induction fuel with
  | zero =>
    intro votes E snaps vf ef _ h
    cases h
  | succ n ih =>
    intro votes E snaps vf ef hinv h
    simp only [runoff_loop_fuel] at h
    split at h
    · injection h with h
      have h1 : ([] : List VoteDict) = snaps := congrArg Prod.fst h
      intro s hs
      rw [← h1] at hs
      cases hs
    · split at h
      · injection h with h
        have h1 : ([] : List VoteDict) = snaps := congrArg Prod.fst h
        intro s hs
        rw [← h1] at hs
        cases hs
      · split at h
        · cases h
        · rename_i hpair
          split at h
          · cases h
          · rename_i snaps2 vf2 ef2 hrec
            injection h with h
            have h1 := congrArg Prod.fst h
            simp only at h1
            have hinv2 := invariant_step hinv
              (fun c hc => select_subset_keys hc)
              (select_nodup hinv.2.2.1) hpair
            intro s hs
            rw [← h1] at hs
            rcases List.mem_cons.mp hs with rfl | hs2
            · exact ⟨_, hinv2⟩
            · exact ih hinv2 hrec s hs2

theorem runoff_loop_invariant {majority : Int} {pool : List Ballot}
    {votes : VoteDict} {E : List String}
    {snaps : List VoteDict} {vf : VoteDict} {ef : List String}
    (hinv : seat_invariant pool E votes)
    (h : runoff_loop majority votes E = .ok (snaps, vf, ef)) :
    ∀ s ∈ snaps, ∃ E3, seat_invariant pool E3 s :=
  runoff_loop_fuel_invariant hinv h

theorem run_seat_ok_inv {r : Runner} {winners : List String}
    {snaps : List VoteDict} {res : SeatResult}
    (h : run_seat r winners = .ok (snaps, res)) :
    ∃ votes0 votes1 elim0 ef,
      seed_all (initial_votes r.candidates) r.data = .ok votes0 ∧
      transfer_votes votes0 winners [] = .ok (votes1, elim0) ∧
      runoff_seat r.majority r.ballot_size r.data
        (remove_candidates votes1 winners) elim0 = .ok (snaps, res, ef) := by
  unfold run_seat at h
  split at h
  · cases h
  · rename_i votes0 hseed
    split at h
    · cases h
    · rename_i pair htr
      split at h
      · cases h
      · rename_i trip hseat
        injection h with h
        have h1 : trip.1 = snaps := congrArg Prod.fst h
        have h2 : trip.2.1 = res := congrArg Prod.snd h
        refine ⟨votes0, pair.1, pair.2, trip.2.2, hseed, ?_, ?_⟩
        · simpa using htr
        · have heta : (snaps, res, trip.2.2) = trip := by
            rw [← h1, ← h2]
          rw [heta]
          exact hseat

/-! ### Forward composition lemmas for the seat pipeline -/

theorem runoff_seat_ok_intro {majority : Int} {bs : Nat} {data : List Ballot}
    {votes vf : VoteDict} {E ef : List String} {snaps : List VoteDict}
    {res : SeatResult}
    (hloop : runoff_loop majority votes E = .ok (snaps, vf, ef))
    (hfin : finish_runoff bs data vf = .ok res) :
    runoff_seat majority bs data votes E
      = .ok (copy_vote_dict votes :: snaps, res, ef) := by
  simp only [runoff_seat, hloop, hfin]

theorem run_seat_ok_intro {r : Runner} {winners : List String}
    {votes0 votes1 : VoteDict} {elim0 ef : List String}
    {snaps : List VoteDict} {res : SeatResult}
    (hseed : seed_all (initial_votes r.candidates) r.data = .ok votes0)
    (htr : transfer_votes votes0 winners [] = .ok (votes1, elim0))
    (hseat : runoff_seat r.majority r.ballot_size r.data
        (remove_candidates votes1 winners) elim0 = .ok (snaps, res, ef)) :
    run_seat r winners = .ok (snaps, res) := by
  simp only [run_seat, hseed, htr, hseat]

theorem run_seat_transfer_error {r : Runner} {winners : List String}
    {votes0 : VoteDict} {e : String}
    (hseed : seed_all (initial_votes r.candidates) r.data = .ok votes0)
    (htr : transfer_votes votes0 winners [] = .error e) :
    run_seat r winners = .error e := by
  simp only [run_seat, hseed, htr]

/-- `tiebreaker_dict` lists every tied candidate (with the claimed
"`ballot_size` minus index, zero if absent" score) as soon as each tied
candidate actually appears on at least one ballot in its scope — which
holds in every reachable tie, since a ballot only sits in a candidate's
bucket if it ranks that candidate. -/
theorem tiebreaker_dict_eq_map {bs : Nat} {wl : List String}
    {scope : String → List Ballot}
    (h : ∀ w ∈ wl, (scope w).any (fun b => b.contains w) = true) :
    tiebreaker_dict bs wl scope
      = wl.map (fun w => (w, candidate_points bs (scope w) w)) := by
  induction wl with
  | nil => rfl
  | cons w ws ih =>
    have hw := h w (List.mem_cons_self w ws)
    have hrec := ih (fun x hx => h x (List.mem_cons_of_mem _ hx))
    simp only [tiebreaker_dict, List.filterMap_cons, hw, if_true, List.map_cons]
    simp only [tiebreaker_dict] at hrec
    rw [hrec]

/-! ### Concrete elections used by the witnesses -/

/-- Seat pool of a small election: two `A`-first ballots, one `B`-first. -/
def exPool : List Ballot := [["A", "B"], ["A", "B"], ["B", "A"]]

/-- The seeded distribution of `exPool`. -/
def exVotes : VoteDict := [("A", [["A", "B"], ["A", "B"]]), ("B", [["B", "A"]])]

/-- `exVotes` after `B` is eliminated and its ballot transferred to `A`. -/
def exVotes1 : VoteDict :=
  [("A", [["A", "B"], ["A", "B"], ["B", "A"]]), ("B", [["B", "A"]])]

/-- A two-way tied distribution. -/
def tieVotes : VoteDict := [("A", [["A", "B"]]), ("B", [["B", "A"]])]

/-- A single unopposed candidate with one ballot. -/
def soloRunner : Runner := ⟨[["A"]], ["A"], 1, 1, 1⟩

/-! ### The claims -/

/-- **C1.**  For every seat's runoff, the elimination loop runs only while
no remaining candidate's bucket size strictly exceeds the majority
threshold: in any state where some candidate's bucket size is strictly
greater than `majority` (`hasMajority` is how line 176/191 of
`ranked_choice_runner.py` computes that), the loop body never executes —
no elimination, no transfer, no further snapshot — and `runoff_loop`
returns the state unchanged for winner selection.  Since every recursive
occurrence of the loop passes through this function, the snapshot at
which the majority is first exceeded is the last snapshot emitted. -/
theorem spec_c1 {majority : Int} {votes : VoteDict} {E : List String}
    (h : hasMajority majority votes = true) :
    runoff_loop majority votes E = .ok ([], votes, E) :=
  runoff_loop_majority h

theorem spec_c1_witness :
    hasMajority 1 exVotes = true ∧
      runoff_loop 1 exVotes [] = .ok ([], exVotes, []) :=
  ⟨by decide, spec_c1 (by decide)⟩

/-- **C2.**  In a runoff state with no majority holder, if the candidates
at the minimum bucket size are the entire remaining candidate set, the
loop stops immediately — nobody is eliminated and no further snapshot is
emitted — and the winner-candidate set computed by the winner-selection
step equals all remaining candidates (they all share the maximum bucket
size, which equals the minimum). -/
theorem spec_c2 {majority : Int} {votes : VoteDict} {E : List String}
    (hne : votes ≠ []) (hmaj : hasMajority majority votes = false)
    (hsel : (select_removable_candidates votes).length = votes.length) :
    runoff_loop majority votes E = .ok ([], votes, E) ∧
      winner_list_of votes = keysOf votes :=
  ⟨runoff_loop_full_tie hne hmaj hsel, winner_list_all_of_select_all hne hsel⟩

theorem spec_c2_witness :
    runoff_loop 2 tieVotes [] = .ok ([], tieVotes, []) ∧
      winner_list_of tieVotes = keysOf tieVotes :=
  spec_c2 (by decide) (by decide) (by decide)

/-- **C3.**  Each seat's runoff is finite.  (a) With fuel at least
`votes.length` the structural bound of `runoff_loop_fuel` is never hit,
because (b) every loop iteration that does not stop (no full tie at the
minimum, transfer succeeded) removes at least one candidate from the
distribution.  Consequently (c) the loop emits at most
`votes.length − 1` round snapshots, and (d) a full seat emits at most
`candidates_running` snapshots — hence at most `candidates_running − 1`
elimination rounds. -/
theorem spec_c3 :
    (∀ (majority : Int) (fuel : Nat) (votes : VoteDict) (E : List String),
        1 ≤ fuel → votes.length ≤ fuel →
        runoff_loop_fuel majority fuel votes E ≠ .error "out of fuel")
    ∧ (∀ (votes v1 : VoteDict) (E E2 : List String),
        (select_removable_candidates votes).length ≠ votes.length →
        transfer_votes votes (select_removable_candidates votes) E = .ok (v1, E2) →
        (remove_candidates v1 (select_removable_candidates votes)).length
          < votes.length)
    ∧ (∀ (majority : Int) (votes : VoteDict) (E : List String)
          (snaps : List VoteDict) (vf : VoteDict) (ef : List String),
        runoff_loop majority votes E = .ok (snaps, vf, ef) →
        snaps.length + 1 ≤ votes.length)
    ∧ (∀ (r : Runner) (winners : List String) (snaps : List VoteDict)
          (res : SeatResult),
        run_seat r winners = .ok (snaps, res) →
        snaps.length ≤ r.candidates.length) := by
  refine ⟨?_, ?_, ?_, ?_⟩
  · intro majority fuel votes E h1 h2
    exact runoff_loop_fuel_no_fuel_error h1 h2
  · intro votes v1 E E2 hsel htr
    exact runoff_round_decreases hsel htr
  · intro majority votes E snaps vf ef h
    exact runoff_loop_snaps_bound h
  · intro r winners snaps res h
    obtain ⟨votes0, votes1, elim0, ef, hseed, htr, hseat⟩ := run_seat_ok_inv h
    obtain ⟨loopsnaps, vf, hloop, _, hsnaps⟩ := runoff_seat_ok_inv hseat
    have hbound := runoff_loop_snaps_bound hloop
    have hk0 : keysOf votes0 = r.candidates := by
      rw [keysOf_seed_all hseed, keysOf_initial_votes]
    have hlen0 : votes0.length = r.candidates.length := by
      have := congrArg List.length hk0
      simpa [keysOf] using this
    have hlen1 : votes1.length = votes0.length :=
      length_eq_of_keysOf_eq (keysOf_transfer_votes htr)
    have hlen2 : (remove_candidates votes1 winners).length ≤ votes1.length :=
      (List.filter_sublist votes1).length_le
    rw [hsnaps, List.length_cons]
    omega

theorem spec_c3_witness :
    (runoff_loop_fuel 2 2 tieVotes [] ≠ .error "out of fuel")
    ∧ ((remove_candidates exVotes1 (select_removable_candidates exVotes)).length
        < exVotes.length)
    ∧ (([] : List VoteDict).length + 1 ≤ exVotes.length)
    ∧ ([exVotes].length ≤ (["A", "B"] : List String).length) := by
  refine ⟨?_, ?_, ?_, ?_⟩
  · exact spec_c3.1 2 2 tieVotes [] (by decide) (by decide)
  · exact spec_c3.2.1 exVotes exVotes1 [] ["B"] (by decide) (by rfl)
  · exact spec_c3.2.2.1 1 exVotes [] [] exVotes [] (by rfl)
  · exact spec_c3.2.2.2 ⟨exPool, ["A", "B"], 2, 1, 1⟩ [] [exVotes] ⟨"A", none⟩
      (by rfl)

/-- **C4.**  Conservation invariant.  If the runoff enters the loop in a
state satisfying `seat_invariant` (as every seeded seat state does —
assuming every ballot entry is a candidate name — see the witness), then
at every snapshot of the seat (the entry state and each per-round
snapshot) there is a cumulative eliminated set `E3` such that:
each ballot appears across all buckets at most as often as in the
seat's pool (so each pool ballot is in at most one bucket), and the
total number of ballots across all buckets plus the number of pool
ballots exhausted w.r.t. `E3` (every choice eliminated) equals the
pool's ballot count. -/
theorem spec_c4 {pool : List Ballot} {majority : Int} {E : List String}
    {votes : VoteDict} (hinv : seat_invariant pool E votes)
    {snaps : List VoteDict} {vf : VoteDict} {ef : List String}
    (hloop : runoff_loop majority votes E = .ok (snaps, vf, ef)) :
    ∀ s ∈ votes :: snaps, ∃ E3,
      (∀ b, bcount b (all_buckets s) ≤ bcount b pool) ∧
      total_ballots s + exhausted_count E3 pool = pool.length := by
  intro s hs
  rcases List.mem_cons.mp hs with rfl | hs2
  · exact ⟨E, fun b => invariant_bucket_count_le hinv b, invariant_conservation hinv⟩
  · obtain ⟨E3, hinv3⟩ := runoff_loop_invariant hinv hloop s hs2
    exact ⟨E3, fun b => invariant_bucket_count_le hinv3 b,
      invariant_conservation hinv3⟩

theorem spec_c4_witness :
    ∃ E3, (∀ b, bcount b (all_buckets exVotes) ≤ bcount b exPool) ∧
      total_ballots exVotes + exhausted_count E3 exPool = exPool.length :=
  @spec_c4 exPool 1 [] exVotes (by unfold seat_invariant; decide)
    [] exVotes [] (by rfl) exVotes (List.mem_cons_self _ _)

theorem note_string_1 :
    "determined by the " ++ make_ordinal 1 ++ " tiebreaker"
      = "determined by the 1st tiebreaker" := by decide

theorem note_string_2 :
    "determined by the " ++ make_ordinal 2 ++ " tiebreaker"
      = "determined by the 2nd tiebreaker" := by decide

/-- **C5.**  The tiebreaker procedure.  When more than one remaining
candidate shares the maximum final bucket size, the first tiebreaker
scores each tied candidate by summing `ballot_size − index` over the
ballots in that candidate's own bucket (`candidate_points` /
`ballot_points`, zero when the candidate is absent from a ballot); a
unique maximum wins with the note `"determined by the 1st tiebreaker"`.
Otherwise the second tiebreaker repeats the identical computation over
all original ballots, and a unique maximum wins with
`"determined by the 2nd tiebreaker"`.  The hypotheses `h1`/`h2` say each
tied candidate is ranked on at least one ballot in scope — true in every
reachable tie, where each tied candidate's bucket is non-empty and every
ballot in it ranks the candidate — and make the `defaultdict` built by
the code list exactly the tied candidates with those scores. -/
theorem spec_c5 (bs : Nat) (data : List Ballot) (votes : VoteDict)
    (w1 w2 : String) (rest : List String)
    (hvne : votes ≠ [])
    (hwl : winner_list_of votes = w1 :: w2 :: rest)
    (h1 : ∀ w ∈ winner_list_of votes,
      (lookup votes w).any (fun b => b.contains w) = true)
    (h2 : ∀ w ∈ winner_list_of votes, data.any (fun b => b.contains w) = true) :
    (∀ w, compute_tiebreaker_winner ((winner_list_of votes).map
        (fun u => (u, candidate_points bs (lookup votes u) u))) = .ok (some w) →
      finish_runoff bs data votes
        = .ok ⟨w, some "determined by the 1st tiebreaker"⟩)
    ∧ (compute_tiebreaker_winner ((winner_list_of votes).map
        (fun u => (u, candidate_points bs (lookup votes u) u))) = .ok none →
      ∀ w, compute_tiebreaker_winner ((winner_list_of votes).map
          (fun u => (u, candidate_points bs data u))) = .ok (some w) →
        finish_runoff bs data votes
          = .ok ⟨w, some "determined by the 2nd tiebreaker"⟩) := by
  have hd1 : tiebreaker_dict bs (winner_list_of votes) (lookup votes)
      = (winner_list_of votes).map
          (fun u => (u, candidate_points bs (lookup votes u) u)) :=
    tiebreaker_dict_eq_map h1
  have hd2 : tiebreaker_dict bs (winner_list_of votes) (fun _ => data)
      = (winner_list_of votes).map (fun u => (u, candidate_points bs data u)) :=
    tiebreaker_dict_eq_map h2
  have hie : votes.isEmpty = false := by
    cases votes with
    | nil => exact absurd rfl hvne
    | cons p ps => rfl
  constructor
  · intro w hw
    simp only [finish_runoff, hie, Bool.false_eq_true, if_false, hwl]
    simp only [run_tiebreaker, run_first_tiebreaker, ← hwl, hd1, hw]
    rw [note_string_1]
  · intro hnone w hw
    simp only [finish_runoff, hie, Bool.false_eq_true, if_false, hwl]
    simp only [run_tiebreaker, run_first_tiebreaker, run_second_tiebreaker,
      ← hwl, hd1, hd2, hnone, hw]
    rw [note_string_2]

/-- A final distribution with `A` and `B` tied at one ballot each, where
the first tiebreaker prefers `A` (ranked first on its ballot, while `B`
is ranked second on its own). -/
def tbVotes : VoteDict := [("A", [["A", "B", "X"]]), ("B", [["X", "B", "A"]])]

/-- All ballots of the `tbVotes` election. -/
def tbData : List Ballot := [["A", "B", "X"], ["X", "B", "A"]]

theorem spec_c5_witness :
    finish_runoff 3 tbData tbVotes
      = .ok ⟨"A", some "determined by the 1st tiebreaker"⟩ :=
  (spec_c5 3 tbData tbVotes "A" "B" [] (by decide) (by decide) (by decide)
    (by decide)).1 "A" (by rfl)

/-- Three candidates `A, B, C`, two seats, four identical ballots
`("A", "A", "A")`, `majority = int(4 * 0.5) + 1 = 3`.  Seat 1: `A`'s
bucket holds all four ballots, `4 > 3`, `A` wins outright.  Seat 2: the
reseed again puts every ballot in `A`'s bucket; transferring the winner
`A`'s ballots exhausts all of them (every choice is the eliminated `A`),
so after `del votes["A"]` the distribution is `{B: [], C: []}`.  No
bucket exceeds the majority, the minimum-bucket set is everything, the
loop breaks as a full tie, and `winner_list = [B, C]`.  Both tiebreaker
`defaultdict`s stay empty (no ballot in scope ranks `B` or `C`), and
`_compute_tiebreaker_winner` evaluates `max([])`. -/
def bugRunner : Runner := ⟨List.replicate 4 ["A", "A", "A"], ["A", "B", "C"], 3, 2, 3⟩

/-- **C6.**  The claim — an unresolved tie is recorded inside the runner
as a sentinel winners entry and no exception escapes the runner boundary
— fails on the program as written: on `bugRunner` (a valid construction:
`mkRunner` accepts it with threshold `0.5`) seat 2 ends in a two-way tie
between candidates whose tiebreaker point mappings are *empty*, and
`_compute_tiebreaker_winner`'s `max([point for point in
tiebreaker_dict.values()])` raises `ValueError` on the empty list.
`_runoff_generator` catches only `RuntimeError` (the documented
unresolved-tie signal of `_run_tiebreaker`, whose own docstring promises
`ValueError` for that case), so the `ValueError` propagates out of the
generator and past the runner boundary instead of the sentinel entry
being added: the tabulation of the seat does not complete. -/
theorem spec_c6 :
    mkRunner bugRunner.data bugRunner.candidates bugRunner.ballot_size
        bugRunner.candidates_required (1 / 2) = .ok bugRunner
    ∧ run_election bugRunner = .error "ValueError" := by
  constructor
  · show mkRunner _ _ _ _ _ = _
    unfold mkRunner
    norm_num [bugRunner, pyInt]
  · rfl

/-- The full ballot list of the tied two-candidate election. -/
def tieData : List Ballot := [["A", "B"], ["B", "A"]]

/-- **C8.**  Construction: `mkRunner` fails exactly when the ballot list
is empty or `candidates_required` exceeds the number of candidates — and
on failure no runner state is built at all.  On success the stored
majority threshold equals `int(len(ballots) * threshold) + 1`
(truncation equals `floor` for the non-negative thresholds in range),
and all fields — including `majority`, which `run_election` and
`runoff_loop` only ever read — are fixed once at construction; the
`threshold` float is modelled as an exact rational. -/
theorem spec_c8 (data : List Ballot) (candidates : List String)
    (bs cr : Nat) (t : ℚ) :
    ((∃ e, mkRunner data candidates bs cr t = .error e) ↔
      (data = [] ∨ cr > candidates.length))
    ∧ (∀ r, mkRunner data candidates bs cr t = .ok r →
        r.majority = pyInt ((data.length : ℚ) * t) + 1 ∧
        r.data = data ∧ r.candidates = candidates ∧
        r.ballot_size = bs ∧ r.candidates_required = cr) := by
  unfold mkRunner
  by_cases h1 : data.isEmpty
  · rw [if_pos h1]
    constructor
    · constructor
      · intro _
        exact Or.inl (List.isEmpty_iff.mp h1)
      · intro _
        exact ⟨_, rfl⟩
    · intro r hr
      cases hr
  · rw [if_neg h1]
    by_cases h2 : cr > candidates.length
    · rw [if_pos h2]
      constructor
      · constructor
        · intro _
          exact Or.inr h2
        · intro _
          exact ⟨_, rfl⟩
      · intro r hr
        cases hr
    · rw [if_neg h2]
      constructor
      · constructor
        · rintro ⟨e, he⟩
          cases he
        · rintro (hd | hcr)
          · exact absurd (List.isEmpty_iff.mpr hd) h1
          · exact absurd hcr h2
      · intro r hr
        injection hr with hr
        rw [← hr]
        exact ⟨rfl, rfl, rfl, rfl, rfl⟩

/-- Seeding into a single-candidate distribution accumulates every
ballot, in order, into that candidate's bucket. -/
theorem seed_all_single {c : String} :
    ∀ (acc : List Ballot) (ds : List Ballot), (∀ b ∈ ds, b.head? = some c) →
      seed_all [(c, acc)] ds = .ok [(c, acc ++ ds)] := by
  intro acc ds
  induction ds generalizing acc with
  | nil =>
    intro _
    simp [seed_all]
  | cons b bs2 ih =>
    intro h
    have hb := h b (List.mem_cons_self b bs2)
    cases b with
    | nil => cases hb
    | cons x tail =>
      have hx : x = c := by
        simp only [List.head?_cons, Option.some.injEq] at hb
        exact hb
      subst hx
      have hkey : hasKey [(x, acc)] x = true := by simp [hasKey]
      simp only [seed_all, seed_ballot, hkey, if_true]
      have happ : appendBallot [(x, acc)] x (x :: tail)
          = [(x, acc ++ [x :: tail])] := by
        simp [appendBallot]
      rw [happ, ih (acc ++ [x :: tail]) (fun b2 hb2 => h b2 (List.mem_cons_of_mem _ hb2))]
      simp

/-- **C9 counterexample.**  A single candidate running unopposed on one
ballot with the default threshold `0.5`: the constructed majority is
`int(1 * 0.5) + 1 = 1`, the seeded bucket holds all (one) ballots, and
`1 > 1` is false — the first-round bucket does **not** exceed the
majority threshold, contradicting the claim's stated reason (the same
happens for two ballots: `2 > 2`).  The candidate still wins immediately
— but through the full-tie escape, not the majority check. -/
theorem spec_c9_counterexample :
    mkRunner [["A"]] ["A"] 1 1 (1/2) = .ok soloRunner
    ∧ seed_all (initial_votes ["A"]) [["A"]] = .ok [("A", [["A"]])]
    ∧ lookup [("A", [["A"]])] "A" = [["A"]]
    ∧ soloRunner.majority = 1
    ∧ hasMajority soloRunner.majority [("A", [["A"]])] = false := by
  refine ⟨?_, by rfl, by rfl, by rfl, by decide⟩
  unfold mkRunner soloRunner
  rw [if_neg (by decide), if_neg (by decide)]
  have hm : pyInt (((([["A"]] : List Ballot).length) : ℚ) * (1/2)) + 1 = 1 := by
    norm_num [pyInt]
  rw [hm]

/-- **C9 amended.**  For every non-empty ballot list in which a single
candidate runs unopposed (candidate list of size one, every ballot's
first choice that candidate), the first-round bucket holds all ballots
and the seat stops immediately with exactly one emitted snapshot, the
candidate added as the winner entry with no note.  When the bucket
exceeds the majority threshold this happens through the majority check;
otherwise (e.g. one or two ballots at threshold `0.5`, where
`floor(N·t)+1 ≤ N` fails to give a strict `N > majority`) it happens
through the full-tie escape, because the single candidate is the entire
remaining candidate set.  No elimination round occurs either way. -/
theorem spec_c9_amended {data : List Ballot} {c : String} {bs cr : Nat}
    {majority : Int}
    (hne : data ≠ []) (hhead : ∀ b ∈ data, b.head? = some c) :
    run_seat ⟨data, [c], bs, cr, majority⟩ [] = .ok ([[(c, data)]], ⟨c, none⟩) := by
  have hseed : seed_all (initial_votes [c]) data = .ok [(c, data)] := by
    have := seed_all_single [] data hhead
    simpa [initial_votes] using this
  have htr : transfer_votes [(c, data)] [] []
      = .ok ([(c, data)], []) := rfl
  have hrem : remove_candidates [(c, data)] [] = [(c, data)] := by
    simp [remove_candidates]
  have hloop : runoff_loop majority [(c, data)] [] = .ok ([], [(c, data)], []) := by
    cases hm : hasMajority majority [(c, data)] with
    | true => exact runoff_loop_majority hm
    | false =>
      refine runoff_loop_full_tie (by simp) hm ?_
      simp [select_removable_candidates, min_bucket_size]
  have hfin : finish_runoff bs data [(c, data)] = .ok ⟨c, none⟩ := by
    have hwl : winner_list_of [(c, data)] = [c] := by
      simp [winner_list_of, max_bucket_size]
    simp only [finish_runoff, List.isEmpty_cons, Bool.false_eq_true, if_false, hwl]
  have hseat := @runoff_seat_ok_intro majority bs data [(c, data)] [(c, data)]
    [] [] [] ⟨c, none⟩ hloop hfin
  have hgoal := @run_seat_ok_intro ⟨data, [c], bs, cr, majority⟩ [] [(c, data)]
    [(c, data)] [] [] [[(c, data)]] ⟨c, none⟩ hseed htr (by rw [hrem]; exact hseat)
  exact hgoal

theorem spec_c9_amended_witness :
    run_seat soloRunner [] = .ok ([[("A", [["A"]])]], ⟨"A", none⟩) :=
  spec_c9_amended (by decide) (by decide)

/-- A concretely constructed runner used to witness `spec_c8`. -/
def rEx8 : Runner :=
  ⟨[["A", "B"], ["B", "A"]], ["A", "B"], 2, 1,
    pyInt (((([["A", "B"], ["B", "A"]] : List Ballot).length : ℚ)) * (1/2)) + 1⟩

theorem spec_c8_witness :
    (rEx8.majority
        = pyInt ((([["A", "B"], ["B", "A"]] : List Ballot).length : ℚ) * (1/2)) + 1
      ∧ rEx8.data = [["A", "B"], ["B", "A"]] ∧ rEx8.candidates = ["A", "B"]
      ∧ rEx8.ballot_size = 2 ∧ rEx8.candidates_required = 1)
    ∧ (∃ e, mkRunner [] ["A", "B"] 2 1 (1/2) = .error e) :=
  ⟨(spec_c8 [["A", "B"], ["B", "A"]] ["A", "B"] 2 1 (1/2)).2 rEx8 rfl,
    (spec_c8 [] ["A", "B"] 2 1 (1/2)).1.mpr (Or.inl rfl)⟩

/-! ### Helper lemmas for the multi-seat driver -/

theorem run_election_aux_length {r : Runner} :
    ∀ {n : Nat} {winners : List String} {notes : List (String × String)}
      {out : List (List VoteDict) × List String × List (String × String)},
      run_election_aux r winners notes n = .ok out → out.1.length = n := by
  intro n
  induction n with
  | zero =>
    intro winners notes out h
    simp only [run_election_aux] at h
    injection h with h
    have h1 : ([] : List (List VoteDict)) = out.1 := congrArg Prod.fst h
    rw [← h1]
    rfl
  | succ m ih =>
    intro winners notes out h
    simp only [run_election_aux] at h
    split at h
    · cases h
    · rename_i sr hsr
      split at h
      · cases h
      · rename_i out2 hrec
        injection h with h
        have h1 : sr.1 :: out2.1 = out.1 := congrArg Prod.fst h
        rw [← h1, List.length_cons, ih hrec]

theorem keysOf_remove_eq (v : VoteDict) (cands : List String) :
    keysOf (remove_candidates v cands)
      = (keysOf v).filter (fun c => !(cands.contains c)) := by
  induction v with
  | nil => rfl
  | cons p ps ih =>
    cases hc : cands.contains p.1 with
    | true =>
      simp only [remove_candidates, keysOf, List.filter_cons, List.map_cons, hc] at *
      simpa using ih
    | false =>
      simp only [remove_candidates, keysOf, List.filter_cons, List.map_cons, hc] at *
      simpa using ih

theorem runoff_loop_fuel_keys_subset {majority : Int} :
    ∀ {fuel : Nat} {votes : VoteDict} {E : List String}
      {snaps : List VoteDict} {vf : VoteDict} {ef : List String},
      runoff_loop_fuel majority fuel votes E = .ok (snaps, vf, ef) →
      ∀ c ∈ keysOf vf, c ∈ keysOf votes := by
  intro fuel
  induction fuel with
  | zero =>
    intro votes E snaps vf ef h
    cases h
  | succ n ih =>
    intro votes E snaps vf ef h
    simp only [runoff_loop_fuel] at h
    split at h
    · injection h with h
      have h2 : votes = vf := congrArg (fun t => t.2.1) h
      rw [← h2]
      exact fun c hc => hc
    · split at h
      · injection h with h
        have h2 : votes = vf := congrArg (fun t => t.2.1) h
        rw [← h2]
        exact fun c hc => hc
      · split at h
        · cases h
        · rename_i v1 E2 hpair
          split at h
          · cases h
          · rename_i snaps2 vf2 ef2 hrec
            injection h with h
            have h2 : vf2 = vf := congrArg (fun t => t.2.1) h
            subst h2
            intro c hc
            have hc2 := ih hrec c hc
            have hsub : c ∈ keysOf v1 :=
              (keysOf_remove_sublist v1 (select_removable_candidates votes)).subset hc2
            rw [keysOf_transfer_votes hpair] at hsub
            exact hsub

theorem runoff_loop_fuel_last {majority : Int} :
    ∀ {fuel : Nat} {votes : VoteDict} {E : List String}
      {snaps : List VoteDict} {vf : VoteDict} {ef : List String},
      runoff_loop_fuel majority fuel votes E = .ok (snaps, vf, ef) →
      (votes :: snaps).getLast? = some vf := by
  intro fuel
  induction fuel with
  | zero =>
    intro votes E snaps vf ef h
    cases h
  | succ n ih =>
    intro votes E snaps vf ef h
    simp only [runoff_loop_fuel] at h
    split at h
    · injection h with h
      have h1 : ([] : List VoteDict) = snaps := congrArg Prod.fst h
      have h2 : votes = vf := congrArg (fun t => t.2.1) h
      rw [← h1, ← h2]
      rfl
    · split at h
      · injection h with h
        have h1 : ([] : List VoteDict) = snaps := congrArg Prod.fst h
        have h2 : votes = vf := congrArg (fun t => t.2.1) h
        rw [← h1, ← h2]
        rfl
      · split at h
        · cases h
        · rename_i v1 E2 hpair
          split at h
          · cases h
          · rename_i snaps2 vf2 ef2 hrec
            injection h with h
            have h1 := congrArg Prod.fst h
            simp only at h1
            have h2 : vf2 = vf := congrArg (fun t => t.2.1) h
            subst h2
            rw [← h1]
            have hlast := ih hrec
            rw [List.getLast?_cons_cons]
            exact hlast

theorem transfer_all_missing {E : List String} :
    ∀ {v : VoteDict} {cs : List String} {s : String},
      s ∈ cs → hasKey v s = false → ∃ e, transfer_all E v cs = .error e := by
  intro v cs
  induction cs generalizing v with
  | nil =>
    intro s hs _
    cases hs
  | cons c cs2 ih =>
    intro s hs hns
    by_cases hk : hasKey v c = true
    · have hsc : s ≠ c := by
        intro hsc
        rw [hsc] at hns
        rw [hns] at hk
        cases hk
      have hs2 : s ∈ cs2 := by
        rcases List.mem_cons.mp hs with rfl | h2
        · exact absurd rfl hsc
        · exact h2
      cases htf : transfer_from E v (lookup v c) with
      | error e =>
        exact ⟨e, by simp only [transfer_all, hk, if_true, htf]⟩
      | ok v1 =>
        have hns1 : hasKey v1 s = false := by
          rw [hasKey_eq_of_keysOf_eq (keysOf_transfer_from htf)]
          exact hns
        obtain ⟨e, he⟩ := ih hs2 hns1
        exact ⟨e, by simp only [transfer_all, hk, if_true, htf]; exact he⟩
    · exact ⟨"KeyError", by simp only [transfer_all]; rw [if_neg hk]⟩

theorem transfer_votes_missing {v : VoteDict} {cands E : List String} {s : String}
    (hs : s ∈ cands) (hns : hasKey v s = false) :
    ∃ e, transfer_votes v cands E = .error e := by
  obtain ⟨e, he⟩ := @transfer_all_missing (union_elim E cands) v cands s hs hns
  exact ⟨e, by simp only [transfer_votes, he]⟩

/-! ### C7 and C10 -/

/-- The sentinel string that an unresolved `Y`/`Z` tie produces —
deliberately also used as a *candidate name* in the counterexample. -/
def xName : String := "A tie has occurred between Y, Z"

/-- Ballots of the sentinel-collision election: the candidate named
`xName` is everyone's first choice; `Y` and `Z` split the rest exactly. -/
def cData : List Ballot :=
  [[xName, "Y", "Z"], [xName, "Y", "Z"], [xName, "Z", "Y"], [xName, "Z", "Y"]]

/-- Two seats among three candidates, majority 3 (threshold 0.5 on four
ballots). -/
def cRunner : Runner := ⟨cData, [xName, "Y", "Z"], 3, 2, 3⟩

/-- **C7 counterexample.**  Fully consuming a seat's sub-sequence does
*not* always add an entry to `winners`: in `cRunner`, seat 1 elects the
candidate named `xName`; seat 2 ends in an unresolved `Y`/`Z` tie whose
sentinel string equals `xName`, and `set.add` is a no-op.  The election
completes both required seats (`seats.length = 2`) yet `winners` holds a
single entry. -/
theorem spec_c7_counterexample :
    ∃ seats notes, run_election cRunner = .ok (seats, [xName], notes)
      ∧ seats.length = cRunner.candidates_required
      ∧ ([xName] : List String).length = 1 :=
  ⟨_, _, rfl, rfl, rfl⟩

/-- **C7 amended.**  Multi-seat behaviour.  (1) `run_election` performs
exactly `candidates_required` seat iterations.  (2) Each seat reseeds
every original ballot into its first choice's bucket, clears the
eliminated set, transfers prior winners' ballots onward and removes the
prior winners from the distribution: the seat's first emitted snapshot
has exactly the non-winner candidates as keys.  (3) Whenever the seat's
winner entry is a candidate of the final distribution (always the case
except for an unresolved-tie sentinel string), that entry is not an
existing member of `winners`, so consuming the seat appends exactly one
new entry — in particular no candidate is declared a winner for two
different seats.  (The unamended claim fails only when a tie sentinel
collides with an existing entry; see the counterexample.) -/
theorem spec_c7 (r : Runner) :
    (∀ out, run_election r = .ok out → out.1.length = r.candidates_required)
    ∧ (∀ (winners : List String) (snaps : List VoteDict) (res : SeatResult),
        run_seat r winners = .ok (snaps, res) →
        ∃ v0 rest, snaps = v0 :: rest ∧
          keysOf v0 = r.candidates.filter (fun c => !(winners.contains c)))
    ∧ (∀ (winners : List String) (snaps : List VoteDict) (res : SeatResult),
        run_seat r winners = .ok (snaps, res) →
        res.winner_entry ∈ keysOf (snaps.getLastD []) →
        winners.contains res.winner_entry = false ∧
        add_winner winners res.winner_entry = winners ++ [res.winner_entry]) := by
  refine ⟨?_, ?_, ?_⟩
  · intro out h
    exact run_election_aux_length h
  · intro winners snaps res h
    obtain ⟨votes0, votes1, elim0, ef, hseed, htr, hseat⟩ := run_seat_ok_inv h
    obtain ⟨loopsnaps, vf, _, _, hsnaps⟩ := runoff_seat_ok_inv hseat
    refine ⟨remove_candidates votes1 winners, loopsnaps, hsnaps, ?_⟩
    rw [keysOf_remove_eq, keysOf_transfer_votes htr, keysOf_seed_all hseed,
      keysOf_initial_votes]
  · intro winners snaps res h hmem
    obtain ⟨votes0, votes1, elim0, ef, hseed, htr, hseat⟩ := run_seat_ok_inv h
    obtain ⟨loopsnaps, vf, hloop, hfin, hsnaps⟩ := runoff_seat_ok_inv hseat
    have hlast : (remove_candidates votes1 winners :: loopsnaps).getLast? = some vf :=
      runoff_loop_fuel_last hloop
    have hlastD : snaps.getLastD [] = vf := by
      rw [hsnaps, List.getLastD_eq_getLast?, hlast]
      rfl
    rw [hlastD] at hmem
    have hsub := runoff_loop_fuel_keys_subset hloop res.winner_entry hmem
    rw [keysOf_remove_eq, keysOf_transfer_votes htr, keysOf_seed_all hseed,
      keysOf_initial_votes] at hsub
    rcases List.mem_filter.mp hsub with ⟨hcand, hcond⟩
    simp only [Bool.not_eq_true'] at hcond
    refine ⟨hcond, ?_⟩
    unfold add_winner
    have hnm := contains_false_iff.mp hcond
    rw [if_neg (by simp [hnm])]

/-- A one-seat election used to witness `spec_c7`. -/
def wRunner : Runner := ⟨exPool, ["A", "B"], 2, 1, 1⟩

theorem spec_c7_witness :
    (([[exVotes]] : List (List VoteDict)).length = wRunner.candidates_required)
    ∧ (∃ v0 rest, ([exVotes] : List VoteDict) = v0 :: rest ∧
        keysOf v0 = wRunner.candidates.filter
          (fun c => !(([] : List String).contains c)))
    ∧ (([] : List String).contains "A" = false
        ∧ add_winner [] "A" = [] ++ ["A"]) :=
  ⟨(spec_c7 wRunner).1 ([[exVotes]], ["A"], []) (by rfl),
    (spec_c7 wRunner).2.1 [] [exVotes] ⟨"A", none⟩ (by rfl),
    (spec_c7 wRunner).2.2 [] [exVotes] ⟨"A", none⟩ (by rfl) (by decide)⟩

/-- Two seats on two candidates whose single ballots tie unresolvably. -/
def tieRunner : Runner := ⟨tieData, ["A", "B"], 2, 2, 2⟩

/-- **C10.**  If a seat ends in an unresolved tie, the sentinel string
naming the tied candidates is added to `winners`; if at least one more
seat remains, the next seat's setup passes that string to
`_transfer_votes`, which looks it up as a key of the freshly seeded vote
distribution (`votes[candidate]`, line 224) and raises an uncaught
`KeyError` — so `run_election` with `candidates_required > 1` is only
total when no earlier seat ends in an unresolved tie.  Part one: any
`winners` entry that is not a candidate makes the next `run_seat` raise.
Part two: the two-ballot tie election concretely errors with `KeyError`
on seat 2. -/
theorem spec_c10 :
    (∀ (r : Runner) (winners : List String) (s : String),
      s ∈ winners → r.candidates.contains s = false →
      ∃ e, run_seat r winners = .error e)
    ∧ run_election tieRunner = .error "KeyError" := by
  constructor
  · intro r winners s hs hns
    cases hseed : seed_all (initial_votes r.candidates) r.data with
    | error e => exact ⟨e, by simp only [run_seat, hseed]⟩
    | ok votes0 =>
      have hk : hasKey votes0 s = false := by
        have hkeys : keysOf votes0 = r.candidates := by
          rw [keysOf_seed_all hseed, keysOf_initial_votes]
        cases hhk : hasKey votes0 s with
        | false => rfl
        | true =>
          exfalso
          have hmem : s ∈ r.candidates := hkeys ▸ hasKey_iff.mp hhk
          have := contains_iff.mpr hmem
          rw [hns] at this
          cases this
      obtain ⟨e, he⟩ := transfer_votes_missing hs hk
      exact ⟨e, run_seat_transfer_error hseed he⟩
  · rfl

theorem spec_c10_witness :
    ∃ e, run_seat tieRunner ["A tie has occurred between A, B"] = .error e :=
  spec_c10.1 tieRunner ["A tie has occurred between A, B"]
    "A tie has occurred between A, B" (by decide) (by decide)

end RankedChoice
